import Mathlib

/-!
Verification development for the CompressedFileEditor repository
(DEFLATE structural dump tool built around Mark Adler's puff.c).

The definitions below are a shallow embedding of the C sources:

* `bits`, `decode`, `construct`, `stored`, `codesLoop`, `fixed`,
  `dynamic`, `puff` come from `src/puff.c`;
* `adler32` comes from `src/utils.c`;
* `decode_gzip_header` / `gzip_dump` come from `src/gzip_dump.c`;
* `decode_zlib_header` / `zlib_dump` come from `src/zlib_dump.c`.

Bytes are modelled as `Nat` (values 0..255 in any reachable state),
machine integers as `Nat`/`Int` with the C wrap-arounds made explicit
where they matter.  The output buffer is modelled as an append-only
list: the C code only ever writes at `out[s->outcnt]` (all writes are
`s->out[s->outcnt] = v` followed in effect by `s->outcnt++`), so the
buffer contents are exactly the list of bytes appended in order; a
write with `outcnt >= outlen` (an out-of-bounds write in C) shows up
here as the output list growing beyond `outlen`.

Logging (`print_*`) and the purely statistical counters of `codes()`
have no effect on decoder state, control flow or return values, and
are omitted; the two trace fields the specification reasons about
(`BLOCK_BIT_POSITION` and `BLOCK_BIT_SIZE`) are modelled explicitly
as a list of `TraceRec` produced by `puff`.
-/

namespace PuffC

/-! ## Input (bit-reader) state: the `incnt` / `bitbuf` / `bitcnt`
fields of `struct state` in puff.c.  `bits()` and `decode()` touch
only these fields, so they are split into their own structure. -/

structure InSt where
  incnt  : Nat
  bitbuf : Nat
  bitcnt : Nat
deriving Repr, DecidableEq

/-- `get_input_bit_position` from puff.c: `(s->incnt << 3) - s->bitcnt`.
In every reachable state `bitcnt <= 8*incnt`, so the `Nat` truncated
subtraction agrees with the C `int` computation. -/
def get_input_bit_position (s : InSt) : Nat :=
  8 * s.incnt - s.bitcnt

/-- The `while (s->bitcnt < need)` byte-loading loop of `bits()` in
puff.c.  Returns the accumulator `val`, the new `incnt`, and the new
bit count (`>= need`), or `none` for the `longjmp(s->env, 1)`
out-of-input unwind.  `fuel` is a structural bound on the iteration
count; each iteration raises `bitcnt` by 8, so the `need` supplied by
`bits` always suffices and the fuel-out `none` is unreachable. -/
def bitsLoad (inp : List Nat) (need : Nat) : Nat → Nat → Nat → Nat → Option (Nat × Nat × Nat)
  | fuel, val, incnt, bitcnt =>
    if bitcnt < need then
      match fuel with
      | 0 => none
      | fuel + 1 =>
        if incnt = inp.length then none
        else bitsLoad inp need fuel (val ||| (inp.getD incnt 0 <<< bitcnt))
               (incnt + 1) (bitcnt + 8)
    else some (val, incnt, bitcnt)

/-- `bits(s, need)` from puff.c: return `need` bits LSB-first, leaving
the dropped bits in the buffer.  `none` models the `longjmp` on input
exhaustion. -/
def bits (inp : List Nat) (need : Nat) (s : InSt) : Option (Nat × InSt) :=
  match bitsLoad inp need need s.bitbuf s.incnt s.bitcnt with
  | none => none
  | some (val, incnt, bitcnt) =>
      some (val &&& (2 ^ need - 1), ⟨incnt, val >>> need, bitcnt - need⟩)

/-! ## Huffman decoding: the fast `decode()` (the variant compiled,
since `SLOW` is not defined), plus the table constructors. -/

/-- The body of the fast `decode()` from puff.c.  State variables are
the C locals `bitbuf, left, code, first, index, len, incnt`;
`bitbuf0`/`bitcnt0` are the values of `s->bitbuf`/`s->bitcnt` at entry
(on the `-10` return the C code leaves those fields untouched while
`s->incnt` has advanced).  `fuel` bounds the loop iterations (at most
two per code bit plus one per byte reload, so the initial 64 supplied
by `decode` is never exhausted); `none` covers the `longjmp`
out-of-input unwind (and the unreachable fuel exhaustion).
`code - count < first` on C ints is written as `code < first + count`,
and `(s->bitcnt - len) & 7` on a (possibly negative) C int equals the
mathematical `(bitcnt0 + 120 - len) % 8` since `len <= 16`. -/
def decodeGo (inp : List Nat) (cnt : Nat → Nat) (sym : List Nat) (bitbuf0 bitcnt0 : Nat) :
    Nat → Nat → Nat → Nat → Nat → Nat → Nat → Nat → Option (Int × InSt)
  | 0, _, _, _, _, _, _, _ => none
  | fuel + 1, bitbuf, left, code, first, index, len, incnt =>
    if left = 0 then
      -- left = (MAXBITS+1) - len; if (left == 0) break;  (ran out of codes: -10)
      let left' := 16 - len
      if left' = 0 then some (-10, ⟨incnt, bitbuf0, bitcnt0⟩)
      else if incnt = inp.length then none
      else
        decodeGo inp cnt sym bitbuf0 bitcnt0 fuel (inp.getD incnt 0)
          (if left' > 8 then 8 else left') code first index len (incnt + 1)
    else
      let code' := code ||| (bitbuf &&& 1)
      let bitbuf' := bitbuf >>> 1
      let count := cnt len
      if code' < first + count then
        some ((sym.getD (index + (code' - first)) 0 : Int),
              ⟨incnt, bitbuf', (bitcnt0 + 120 - len) % 8⟩)
      else
        decodeGo inp cnt sym bitbuf0 bitcnt0 fuel bitbuf' (left - 1) (code' * 2)
          ((first + count) * 2) (index + count) (len + 1) incnt

/-- `decode(s, h)` from puff.c (fast variant): decode one Huffman
symbol.  The table is passed as its two components: `cnt` for
`h->count[]` and `sym` for `h->symbol[]`. -/
def decode (inp : List Nat) (cnt : Nat → Nat) (sym : List Nat) (s : InSt) :
    Option (Int × InSt) :=
  decodeGo inp cnt sym s.bitbuf s.bitcnt 64 s.bitbuf s.bitcnt 0 0 0 1 s.incnt

/-- The histogram built by `construct()`:
`for (symbol = 0; symbol < n; symbol++) (h->count[length[symbol]])++`.
`lengthCount lengths l` is the number of symbols of code length `l`. -/
def lengthCount (lengths : List Nat) (l : Nat) : Nat :=
  lengths.count l

/-- The symbols of code length `l`, in ascending symbol order. -/
def symbolsOfLength (lengths : List Nat) (l : Nat) : List Nat :=
  (List.range lengths.length).filter (fun s => lengths.getD s 0 = l)

/-- The `h->symbol[]` table filled by `construct()`: symbols sorted by
code length, retaining ascending symbol order within each length
(the C code inserts symbol `s` with nonzero length at
`offs[length[s]]++`, where `offs` holds the per-length prefix sums, so
the filled table is exactly the length-1 group, then the length-2
group, ..., each group in ascending symbol order). -/
def mkSymbol (lengths : List Nat) : List Nat :=
  ((List.range 15).map (fun i => symbolsOfLength lengths (i + 1))).flatten

/-- The over-subscription check loop of `construct()`:
`left = 1; for (len = 1; len <= MAXBITS; len++) { left <<= 1;
left -= h->count[len]; if (left < 0) return left; }` returning the
final `left` (positive = incomplete, zero = complete).  `k` counts the
remaining lengths to process (`16 - l`, so 15 at entry with `l = 1`). -/
def constructLoop (cnt : Nat → Nat) : Nat → Nat → Int → Int
  | 0, _, left => left
  | k + 1, l, left =>
    let left' := 2 * left - (cnt l : Int)
    if left' < 0 then left'
    else constructLoop cnt k (l + 1) left'

/-- The return value of `construct(h, length, n)` from puff.c.  The
tables themselves are `lengthCount`/`mkSymbol` above; this is the
completeness code: `n - h->count[0] == 0` (no symbols at all) returns
0 ("complete, but decode() will fail"), otherwise the left-recurrence
with early negative exit. -/
def construct (lengths : List Nat) : Int :=
  if lengths.length - lengths.count 0 = 0 then 0
  else constructLoop (lengthCount lengths) 15 1 1

/-! ## The trace auxiliaries of puff.c used for the verbose dump:
`get_symbol_index_from_huffman_table`,
`get_symbol_length_from_huffman_table`,
`get_encoded_val_from_huffman_table`. -/

/-- `get_symbol_index_from_huffman_table`: linear search of
`h->symbol[]` for `symbol`; `-1` when absent.  (The C loop scans the
fixed-size backing array; for a symbol present in the filled part the
first hit is inside the filled part, which is what is modelled.) -/
def get_symbol_index_from_huffman_table (sym : List Nat) (symbol : Nat) : Int :=
  match sym.findIdx? (· = symbol) with
  | some i => (i : Int)
  | none => -1

/-- The `for (j = 1; j <= MAXBITS; j++) { len_count += h->count[j];
if (len_count > symbol_index) return j; }` scan of
`get_symbol_length_from_huffman_table`; 0 past the end.  `k` counts
the remaining lengths (`16 - j`, so 15 at entry with `j = 1`). -/
def lengthScan (cnt : Nat → Nat) (i : Nat) : Nat → Nat → Nat → Nat
  | 0, _, _ => 0
  | k + 1, j, acc =>
    let acc' := acc + cnt j
    if i < acc' then j else lengthScan cnt i k (j + 1) acc'

/-- `get_symbol_length_from_huffman_table` from puff.c. -/
def get_symbol_length_from_huffman_table (cnt : Nat → Nat) (sym : List Nat)
    (symbol : Nat) : Nat :=
  match sym.findIdx? (· = symbol) with
  | none => 0
  | some i => lengthScan cnt i 15 1 0

/-- The `next_code` recurrence of `get_encoded_val_from_huffman_table`
(computed there with `h->count[0]` temporarily zeroed):
`next_code[1] = 0`, `next_code[i+1] = (next_code[i] + count[i]) << 1`.
This is also exactly the value of decode()'s `first` variable when it
reaches length `l`. -/
def firstCode (cnt : Nat → Nat) : Nat → Nat
  | 0 => 0
  | 1 => 0
  | l + 2 => (firstCode cnt (l + 1) + cnt (l + 1)) * 2

/-- The `offs` prefix sums of `get_encoded_val_from_huffman_table`
(`offs[1] = 0`, `offs[i+1] = offs[i] + count[i]`); also decode()'s
`index` variable at length `l`. -/
def symIndex (cnt : Nat → Nat) : Nat → Nat
  | 0 => 0
  | 1 => 0
  | l + 2 => symIndex cnt (l + 1) + cnt (l + 1)

/-- `get_encoded_val_from_huffman_table` from puff.c: the canonical
code value assigned to `symbol`:
`next_code[symbol_len] + (symbol_index - offs[symbol_len])`. -/
def get_encoded_val_from_huffman_table (cnt : Nat → Nat) (sym : List Nat)
    (symbol : Nat) : Int :=
  match sym.findIdx? (· = symbol) with
  | none => -1
  | some si =>
    let sl := lengthScan cnt si 15 1 0
    if sl = 0 then -1
    else ((firstCode cnt sl + (si - symIndex cnt sl) : Nat) : Int)

/-! ## Checksum (src/utils.c) -/

/-- `adler32(data_val)` from utils.c, acting on the accumulator
(global `adler32_checksum` in C, threaded explicitly here). -/
def adler32 (checksum : Nat) (data_val : Nat) : Nat :=
  let upper_word := (checksum >>> 16) &&& 0xffff
  let lower_word := checksum &&& 0xffff
  let lower_word := lower_word + data_val
  let lower_word := if 65521 ≤ lower_word then lower_word - 65521 else lower_word
  let upper_word := upper_word + lower_word
  let upper_word := if 65521 ≤ upper_word then upper_word - 65521 else upper_word
  lower_word ||| (upper_word <<< 16)

/-- Folding `adler32` over a byte list (each emitted byte is fed to the
accumulator in order). -/
def adlerList (checksum : Nat) (bs : List Nat) : Nat :=
  bs.foldl adler32 checksum

/-! ## Full decoder state (`struct state` of puff.c).  `hasOut`
models `s->out != NIL`; in scan mode (`hasOut = false`) only `outcnt`
advances. -/

structure St where
  hasOut : Bool
  outlen : Nat
  outBuf : List Nat
  outcnt : Nat
  adler  : Nat
  ins    : InSt
deriving Repr, DecidableEq

/-! ## Stored blocks (`stored()` in puff.c) -/

/-- The `while (len--)` copy loop of `stored()`.  Inside the C loop
body `len` has already been decremented, so with `n+1` bytes still to
copy the output-space check reads `s->outcnt + n > s->outlen` — note
this is the state of the source, an off-by-one relative to the
upstream puff.c bound check. -/
def storedLoop (inp : List Nat) : Nat → St → Int × St
  | 0, s => (0, s)
  | n + 1, s =>
    let data_val := inp.getD s.ins.incnt 0
    let s := { s with ins := { s.ins with incnt := s.ins.incnt + 1 } }
    if s.hasOut then
      if s.outcnt + n > s.outlen then (1, s)
      else
        storedLoop inp n
          { s with outBuf := s.outBuf ++ [data_val],
                   adler := adler32 s.adler data_val,
                   outcnt := s.outcnt + 1 }
    else storedLoop inp n { s with outcnt := s.outcnt + 1 }

/-- `stored(s)` from puff.c: discard partial-byte bits, read
LEN/NLEN (little-endian), check the complement, check input bounds,
then copy.  Returns the C return code and the new state. -/
def stored (inp : List Nat) (s : St) : Int × St :=
  let s := { s with ins := { s.ins with bitbuf := 0, bitcnt := 0 } }
  if s.ins.incnt + 4 > inp.length then (2, s)
  else
    let len := inp.getD s.ins.incnt 0 ||| (inp.getD (s.ins.incnt + 1) 0 <<< 8)
    let nlen := inp.getD (s.ins.incnt + 2) 0 ||| (inp.getD (s.ins.incnt + 3) 0 <<< 8)
    let s := { s with ins := { s.ins with incnt := s.ins.incnt + 4 } }
    if len + nlen ≠ 65535 then (-2, s)
    else if s.ins.incnt + len > inp.length then (2, s)
    else storedLoop inp len s

/-! ## Literal/length/distance decoding loop (`codes()` in puff.c) -/

/-- Size base for length codes 257..285 (`lens[]` in puff.c). -/
def lens : List Nat :=
  [3, 4, 5, 6, 7, 8, 9, 10, 11, 13, 15, 17, 19, 23, 27, 31] ++
  [35, 43, 51, 59, 67, 83, 99, 115, 131, 163, 195, 227, 258]

/-- Extra bits for length codes 257..285 (`lext[]` in puff.c). -/
def lext : List Nat :=
  [0, 0, 0, 0, 0, 0, 0, 0, 1, 1, 1, 1, 2, 2, 2, 2] ++
  [3, 3, 3, 3, 4, 4, 4, 4, 5, 5, 5, 5, 0]

/-- Offset base for distance codes 0..29 (`dists[]` in puff.c). -/
def dists : List Nat :=
  [1, 2, 3, 4, 5, 7, 9, 13, 17, 25, 33, 49, 65, 97, 129, 193] ++
  [257, 385, 513, 769, 1025, 1537, 2049, 3073, 4097, 6145] ++
  [8193, 12289, 16385, 24577]

/-- Extra bits for distance codes 0..29 (`dext[]` in puff.c). -/
def dext : List Nat :=
  [0, 0, 0, 0, 1, 1, 2, 2, 3, 3, 4, 4, 5, 5, 6, 6] ++
  [7, 7, 8, 8, 9, 9, 10, 10, 11, 11, 12, 12, 13, 13]

/-- The `while (len--)` back-reference copy loop of `codes()`:
`s->out[s->outcnt] = s->out[s->outcnt - dist]`, feed the byte to the
checksum, `s->outcnt++`.  (`INFLATE_ALLOW_INVALID_DISTANCE_TOOFAR_ARRR`
is not defined, so there is no zero-fill alternative.) -/
def backrefLoop (dist : Nat) : Nat → St → St
  | 0, s => s
  | n + 1, s =>
    let b := s.outBuf.getD (s.outcnt - dist) 0
    backrefLoop dist n
      { s with outBuf := s.outBuf ++ [b],
               adler := adler32 s.adler b,
               outcnt := s.outcnt + 1 }

/-- The back-reference tail of a length/distance pair in `codes()`
(puff.c lines 732..759): the distance-too-far check, then — with an
output buffer — the output-space check and the one-byte-at-a-time
copy, or — in scan mode — just `s->outcnt += len`.  A nonzero first
component is returned from `codes()` directly; zero continues the
loop. -/
def backrefCopy (len dist : Nat) (s : St) : Int × St :=
  if dist > s.outcnt then (-11, s)
  else if s.hasOut then
    if s.outcnt + len > s.outlen then (1, s)
    else (0, backrefLoop dist len s)
  else (0, { s with outcnt := s.outcnt + len })

/-- The `do { ... } while (symbol != 256)` loop of `codes()`.
`fuel` bounds the iterations (each iteration consumes at least one
input bit, so the `8*inp.length + 16` supplied by the callers is never
exhausted; exhaustion is mapped to `none` like the out-of-input
unwind).  The statistics counters of `codes()` only feed the log and
are omitted; both the final paths of `codes()` return 0. -/
def codesLoop (inp : List Nat) (lencnt : Nat → Nat) (lensym : List Nat)
    (distcnt : Nat → Nat) (distsym : List Nat) : Nat → St → Option (Int × St)
  | 0, _ => none
  | fuel + 1, s =>
    match decode inp lencnt lensym s.ins with
    | none => none
    | some (symbol, ins') =>
      let s := { s with ins := ins' }
      if symbol < 0 then some (symbol, s)      -- invalid symbol
      else if symbol < 256 then
        -- literal: write out, feed checksum; s->outcnt++ happens in both modes
        if s.hasOut ∧ s.outcnt = s.outlen then some (1, s)
        else
          let s :=
            if s.hasOut then
              { s with outBuf := s.outBuf ++ [symbol.toNat],
                       adler := adler32 s.adler symbol.toNat }
            else s
          codesLoop inp lencnt lensym distcnt distsym fuel
            { s with outcnt := s.outcnt + 1 }
      else if symbol = 256 then some (0, s)    -- end of block
      else
        -- length, then distance
        let sy := (symbol - 257).toNat
        if 29 ≤ sy then some (-10, s)          -- invalid fixed code
        else
          match bits inp (lext.getD sy 0) s.ins with
          | none => none
          | some (len_extra, ins2) =>
            let len := lens.getD sy 0 + len_extra
            match decode inp distcnt distsym ins2 with
            | none => none
            | some (dsymbol, ins3) =>
              let s := { s with ins := ins3 }
              if dsymbol < 0 then some (dsymbol, s)
              else
                match bits inp (dext.getD dsymbol.toNat 0) s.ins with
                | none => none
                | some (dist_extra, ins4) =>
                  let dist := dists.getD dsymbol.toNat 0 + dist_extra
                  let s := { s with ins := ins4 }
                  let r := backrefCopy len dist s
                  if r.1 = 0 then
                    codesLoop inp lencnt lensym distcnt distsym fuel r.2
                  else some r

/-! ## Fixed blocks (`fixed()` in puff.c) -/

/-- The fixed literal/length code lengths built in `fixed()`:
0..143 ↦ 8, 144..255 ↦ 9, 256..279 ↦ 7, 280..287 ↦ 8. -/
def fixedLengths : List Nat :=
  (List.range 288).map (fun symbol =>
    if symbol < 144 then 8 else if symbol < 256 then 9
    else if symbol < 280 then 7 else 8)

/-- The fixed distance code lengths: 30 symbols of length 5. -/
def fixedDistLengths : List Nat := List.replicate 30 5

def fixedLencnt : Nat → Nat := lengthCount fixedLengths
def fixedLensym : List Nat := mkSymbol fixedLengths
def fixedDistcnt : Nat → Nat := lengthCount fixedDistLengths
def fixedDistsym : List Nat := mkSymbol fixedDistLengths

/-- `fixed(s)` from puff.c: build the fixed tables (cached behind the
`virgin` flag in C — a pure computation here) and run `codes()`. -/
def fixed (inp : List Nat) (fuel : Nat) (s : St) : Option (Int × St) :=
  codesLoop inp fixedLencnt fixedLensym fixedDistcnt fixedDistsym fuel s

/-! ## Dynamic blocks (`dynamic()` in puff.c) -/

/-- Permutation of code length codes (`order[]` in puff.c). -/
def order : List Nat :=
  [16, 17, 18, 0, 8, 7, 9, 6, 10, 5, 11, 4, 12, 3, 13, 2, 14, 1, 15]

/-- The first reading loop of `dynamic()`:
`for (index = 0; index < ncode; index++)
   lengths[order[index]] = bits(s, 3);`
(the second loop zeroes `lengths[order[index]]` for the remaining
indices up to 18; starting from the all-zero table makes it a no-op).
`k` counts the remaining iterations (`ncode - index`). -/
def clenRead (inp : List Nat) : Nat → Nat → (Nat → Nat) → InSt →
    Option ((Nat → Nat) × InSt)
  | 0, _, lengths, ins => some (lengths, ins)
  | k + 1, index, lengths, ins =>
    match bits inp 3 ins with
    | none => none
    | some (v, ins') =>
      clenRead inp k (index + 1) (Function.update lengths (order.getD index 0) v) ins'

/-- `while (repeat_times--) lengths[index++] = len;` -/
def writeRun (lengths : Nat → Nat) (index : Nat) (len : Nat) : Nat → Nat → Nat
  | 0 => lengths
  | k + 1 => Function.update (writeRun lengths index len k) (index + k) len

/-- The `while (index < nlen + ndist)` code-length reading loop of
`dynamic()`: decode a symbol through the code-length code; 0..15 is a
length, 16 repeats the previous length `3 + bits(2)` times (error -5
with no previous), 17 repeats zero `3 + bits(3)` times, 18 repeats
zero `11 + bits(7)` times; a repeat running past `nlen + ndist` is
error -6.  Returns the filled `lengths` or the negative error. -/
def lensRead (inp : List Nat) (cnt : Nat → Nat) (sym : List Nat) (total : Nat) :
    (fuel : Nat) → (index : Nat) → (Nat → Nat) → InSt →
    Option (Except Int ((Nat → Nat)) × InSt)
  | 0, _, _, _ => none
  | fuel + 1, index, lengths, ins =>
    if index < total then
      match decode inp cnt sym ins with
      | none => none
      | some (symbol, ins1) =>
        if symbol < 0 then some (.error symbol, ins1)
        else if hs : symbol < 16 then
          lensRead inp cnt sym total fuel (index + 1)
            (Function.update lengths index symbol.toNat) ins1
        else if symbol = 16 then
          if index = 0 then some (.error (-5), ins1)   -- no last length
          else
            match bits inp 2 ins1 with
            | none => none
            | some (v, ins2) =>
              if index + (3 + v) > total then some (.error (-6), ins2)
              else
                lensRead inp cnt sym total fuel (index + (3 + v))
                  (writeRun lengths index (lengths (index - 1)) (3 + v)) ins2
        else if symbol = 17 then
          match bits inp 3 ins1 with
          | none => none
          | some (v, ins2) =>
            if index + (3 + v) > total then some (.error (-6), ins2)
            else
              lensRead inp cnt sym total fuel (index + (3 + v))
                (writeRun lengths index 0 (3 + v)) ins2
        else
          match bits inp 7 ins1 with
          | none => none
          | some (v, ins2) =>
            if index + (11 + v) > total then some (.error (-6), ins2)
            else
              lensRead inp cnt sym total fuel (index + (11 + v))
                (writeRun lengths index 0 (11 + v)) ins2
    else some (.ok lengths, ins)

/-- The incomplete-table rejection test applied by `dynamic()` to both
the literal/length and the distance table (puff.c lines 1286 and
1295): `err && (err < 0 || n != h->count[0] + h->count[1])` where
`err = construct(...)` and `n` is the number of lengths. -/
def tableRejected (lengths : List Nat) : Bool :=
  let err := construct lengths
  err ≠ 0 ∧ (err < 0 ∨ lengths.length ≠ lengths.count 0 + lengths.count 1)

/-- The table-validation phase of `dynamic()`: reject the
literal/length table with -7, then the distance table with -8,
otherwise 0 (proceed to `codes()`). -/
def dynTableCheck (litlens distlens : List Nat) : Int :=
  if tableRejected litlens then -7
  else if tableRejected distlens then -8
  else 0

/-- `dynamic(s)` from puff.c: read HLIT/HDIST/HCLEN, check the counts,
read the code-length code lengths (permuted by `order[]`, missing
entries zero), require that code to be complete, read the combined
literal/length + distance code length list, require an end-of-block
code, validate both tables, then run `codes()`. -/
def dynamic (inp : List Nat) (s : St) : Option (Int × St) :=
  match bits inp 5 s.ins with
  | none => none
  | some (v1, ins1) =>
  match bits inp 5 ins1 with
  | none => none
  | some (v2, ins2) =>
  match bits inp 4 ins2 with
  | none => none
  | some (v3, ins3) =>
    let nlen := v1 + 257
    let ndist := v2 + 1
    let ncode := v3 + 4
    let s := { s with ins := ins3 }
    if nlen > 286 ∨ ndist > 30 then some (-3, s)   -- bad counts
    else
      match clenRead inp ncode 0 (fun _ => 0) s.ins with
      | none => none
      | some (clengths, ins4) =>
        let clens := (List.range 19).map clengths
        let s := { s with ins := ins4 }
        if construct clens ≠ 0 then some (-4, s)   -- complete code required here
        else
          match lensRead inp (lengthCount clens) (mkSymbol clens)
              (nlen + ndist) (nlen + ndist + 1) 0 clengths s.ins with
          | none => none
          | some (.error e, ins5) => some (e, { s with ins := ins5 })
          | some (.ok lengths, ins5) =>
            let s := { s with ins := ins5 }
            if lengths 256 = 0 then some (-9, s)   -- missing end-of-block code
            else
              let litlens := (List.range nlen).map lengths
              let distlens := (List.range ndist).map (fun i => lengths (nlen + i))
              let chk := dynTableCheck litlens distlens
              if chk ≠ 0 then some (chk, s)
              else
                codesLoop inp (lengthCount litlens) (mkSymbol litlens)
                  (lengthCount distlens) (mkSymbol distlens)
                  (8 * inp.length + 16) s

/-! ## The top-level block loop (`puff()` in puff.c) -/

/-- One block record of the structural trace: the `BLOCK_BIT_POSITION`
printed at the top of the loop, and the `BLOCK_BIT_SIZE` printed after
the block decoder returns (`none` when the out-of-input unwind fires
inside the block, in which case no size line is ever printed). -/
structure TraceRec where
  pos : Nat
  size : Option Nat
deriving Repr, DecidableEq

/-- The `do { ... } while (!last)` loop of `puff()`.  `blockStart` is
the C variable `block_start_bit_position` (the bit position captured
at the end of the previous iteration, 0 initially), `tr` the trace
records emitted so far.  After each block:
`block_bit_size = end - start` is recorded, and — exactly as in the
source — if the new position equals `8 * sourcelen` the error is
overwritten with 0 and the loop exits; otherwise a nonzero error
exits, and otherwise the loop continues while `!last`.
`fuel` bounds the iterations (each one consumes at least one bit, so
the `8*inp.length + 16` supplied by `puff` is never exhausted;
exhaustion behaves like the out-of-input unwind). -/
def puffLoop (inp : List Nat) : Nat → St → Nat → List TraceRec →
    Int × St × List TraceRec
  | 0, s, _, tr => (2, s, tr)
  | fuel + 1, s, blockStart, tr =>
    match bits inp 1 s.ins with
    | none => (2, s, tr)
    | some (last, ins1) =>
      match bits inp 2 ins1 with
      | none => (2, { s with ins := ins1 }, tr ++ [⟨blockStart, none⟩])
      | some (ty, ins2) =>
        let s2 := { s with ins := ins2 }
        let res : Option (Int × St) :=
          if ty = 0 then some (stored inp s2)
          else if ty = 1 then fixed inp (8 * inp.length + 16) s2
          else if ty = 2 then dynamic inp s2
          else some (-1, s2)                     -- invalid block type
        match res with
        | none => (2, s2, tr ++ [⟨blockStart, none⟩])
        | some (err, s3) =>
          let endPos := get_input_bit_position s3.ins
          let tr := tr ++ [⟨blockStart, some (endPos - blockStart)⟩]
          if endPos = 8 * inp.length then (0, s3, tr)
          else if err ≠ 0 then (err, s3, tr)
          else if last = 1 then (0, s3, tr)
          else puffLoop inp fuel s3 endPos tr

/-- The initial `struct state` set up by `puff()`; the Adler-32
accumulator (global in C, initialized to 1) is part of the state. -/
def puffInit (hasOut : Bool) (outlen : Nat) : St :=
  ⟨hasOut, outlen, [], 0, 1, ⟨0, 0, 0⟩⟩

/-- `puff(dest, destlen, source, sourcelen)` from puff.c.
`hasOut = false` is the scan-only mode (`dest == NIL`); `outlen` is
`*destlen`.  Returns the error code, the final state, and the trace of
block records. -/
def puff (hasOut : Bool) (outlen : Nat) (inp : List Nat) :
    Int × St × List TraceRec :=
  puffLoop inp (8 * inp.length + 16) (puffInit hasOut outlen) 0 []

/-- The `*destlen` reported by `puff()`: updated to `s.outcnt` only
when `err <= 0`. -/
def puffDestlen (outlen0 : Nat) (r : Int × St × List TraceRec) : Nat :=
  if r.1 ≤ 0 then r.2.1.outcnt else outlen0

/-! ## Gzip envelope (src/gzip_dump.c) -/

/-- `strlen` of the NUL-terminated string starting at offset `i`
(the C code would keep reading past the buffer; the model stops at the
end of the provided bytes). -/
def cstrlen (source : List Nat) (i : Nat) : Nat :=
  ((source.drop i).takeWhile (· ≠ 0)).length

/-- `decode_gzip_header` from gzip_dump.c: returns the header size in
bytes, or -1.  Checks: ID1 = 0x1f, ID2 = 0x8b, compression method > 8
fails (8 is DEFLATE, below 8 only logs "Reserved"), reserved flag bits
5..7 must be zero.  MTIME/XFL/OS are read but unchecked.  Optional
fields: FEXTRA (2-byte XLEN + data), FNAME and FCOMMENT
(NUL-terminated; the C advance `buffer_index += string_len` goes
through the `unsigned char string_len`, hence the mod-256), FHCRC
(2 bytes). -/
def decode_gzip_header (source : List Nat) : Int :=
  if source.getD 0 0 ≠ 0x1f then -1
  else if source.getD 1 0 ≠ 0x8b then -1
  else if source.getD 2 0 > 8 then -1
  else
    let file_flags := source.getD 3 0
    if (file_flags >>> 5) &&& 0x7 ≠ 0 then -1
    else
      -- MTIME source[4..7], XFL source[8], OS source[9]
      let idx := 10
      let idx :=
        if (file_flags >>> 2) &&& 0x1 = 1 then
          idx + 2 + (source.getD idx 0 ||| (source.getD (idx + 1) 0 <<< 8))
        else idx
      let idx :=
        if (file_flags >>> 3) &&& 0x1 = 1 then idx + (cstrlen source idx + 1) % 256
        else idx
      let idx :=
        if (file_flags >>> 4) &&& 0x1 = 1 then idx + (cstrlen source idx + 1) % 256
        else idx
      let idx :=
        if (file_flags >>> 1) &&& 0x1 = 1 then idx + 2 else idx
      (idx : Int)

/-- The outcome of `gzip_dump` relevant to the specification: the
return value, the decompressed bytes, the `CHECKSUM_IN_FILE` trailer
bytes, and the value recorded as `CHECKSUM_CALCULATED` (the Adler-32
accumulator after decoding; the C code byte-swaps it with
`swap_uint32` purely to print its four bytes). -/
structure GzipOut where
  ret : Int
  headerSize : Int
  output : List Nat
  checksumCalculated : Option Nat
  checksumInFile : Option (List Nat)
deriving Repr, DecidableEq

/-- `gzip_dump(dest, destlen, source, sourcelen)` from gzip_dump.c:
decode the header, run `puff()` on the remainder, and — when at least
4 bytes of input remain past the deflate stream — record the trailer
checksum found in the file and (with an output buffer) the computed
checksum.  In scan mode a nonzero `puff` result returns early. -/
def gzip_dump (hasOut : Bool) (outlen : Nat) (source : List Nat) : GzipOut :=
  let hdr := decode_gzip_header source
  if hdr < 0 then ⟨-1, hdr, [], none, none⟩
  else
    let hdrSize := hdr.toNat
    let source_skip_header_size := source.length - hdrSize
    let payload := source.drop hdrSize
    let r := puff hasOut outlen payload
    let err := r.1
    let st := r.2.1
    if ¬hasOut ∧ err ≠ 0 then ⟨err, hdr, [], none, none⟩
    else
      -- puff updates *sourcelen (here: decompressed_len) only when err <= 0
      let decompressed_len :=
        if err ≤ 0 then st.ins.incnt else source_skip_header_size
      if source_skip_header_size - decompressed_len ≥ 4 then
        ⟨err, hdr, st.outBuf,
         if hasOut then some st.adler else none,
         some ((source.drop (hdrSize + decompressed_len)).take 4)⟩
      else ⟨err, hdr, st.outBuf, none, none⟩

/-- CRC-32 bitwise update for one byte.
Modelled from the spec: "CRC-32 is the standard gzip polynomial
(0xEDB88320 reflected)"; no CRC-32 implementation exists anywhere in
src/ (utils.c provides only `adler32`). -/
def crc32Byte (crc : Nat) (b : Nat) : Nat :=
  let c := crc ^^^ b
  let step := fun (x : Nat) => if x % 2 = 1 then (x >>> 1) ^^^ 0xEDB88320 else x >>> 1
  step (step (step (step (step (step (step (step c)))))))

/-- CRC-32 of a byte list (init 0xFFFFFFFF, final complement).
Modelled from the spec (see `crc32Byte`). -/
def crc32 (bs : List Nat) : Nat :=
  (bs.foldl crc32Byte 0xFFFFFFFF) ^^^ 0xFFFFFFFF

/-- Little-endian value of a 4-byte list. -/
def le32 (bs : List Nat) : Nat :=
  bs.getD 0 0 + bs.getD 1 0 * 256 + bs.getD 2 0 * 65536 + bs.getD 3 0 * 16777216

/-! ## Zlib envelope (src/zlib_dump.c) -/

/-- The outcome of `decode_zlib_header`: the return value and the
`description` recorded in the `FCHECK` trace record (emitted only when
the CM/CINFO checks pass). -/
def decode_zlib_header (source : List Nat) : Int × Option String :=
  let cmf := source.getD 0 0
  let comp_method := cmf &&& 0xF
  let comp_info := (cmf >>> 4) &&& 0xF
  -- comp_method == 8 is DEFLATE; both the ==15 "Reserved" branch and
  -- the remaining "Invalid" branch return -1
  if comp_method ≠ 8 then (-1, none)
  else if comp_info ≠ 7 then (-1, none)
  else
    let flags := source.getD 1 0
    if (cmf * 256 + flags) % 31 ≠ 0 then (0, some "check failed")
    else (0, some "check success")

/-- The outcome of `zlib_dump` relevant to the specification. -/
structure ZlibOut where
  ret : Int
  fcheckDesc : Option String
  deflateInvoked : Bool      -- whether control reached the puff() call
  output : List Nat
deriving Repr, DecidableEq

/-- `zlib_dump(dest, destlen, source, sourcelen)` from zlib_dump.c:
a failed header decode aborts with -1 before `puff()`; otherwise the
DEFLATE payload (everything after the 2 header bytes) is decoded. -/
def zlib_dump (hasOut : Bool) (outlen : Nat) (source : List Nat) : ZlibOut :=
  let h := decode_zlib_header source
  if h.1 ≠ 0 then ⟨-1, h.2, false, []⟩
  else
    let r := puff hasOut outlen (source.drop 2)
    ⟨r.1, h.2, true, r.2.1.outBuf⟩

/-! ## Specification-side auxiliary definitions (used only to state
and prove properties about the embedded code). -/

/-- The left-recurrence of the specification, iterated without the
early exit of `construct()`: `leftAt cnt l` is the value of `left`
after processing lengths `1..l` starting from 1. -/
def leftAt (cnt : Nat → Nat) : Nat → Int
  | 0 => 1
  | l + 1 => 2 * leftAt cnt l - (cnt (l + 1) : Int)

/-- `leftFold cnt k j left`: the same recurrence run from length `j`
for `k` more steps with accumulator `left`, with no early exit. -/
def leftFold (cnt : Nat → Nat) : Nat → Nat → Int → Int
  | 0, _, left => left
  | k + 1, j, left => leftFold cnt k (j + 1) (2 * left - (cnt j : Int))

/-- The bits of the canonical `L`-bit code `v`, in the order they
appear on the wire: MSB of the code first (DEFLATE delivers Huffman
codes MSB-first within the code, while the stream itself is consumed
LSB-first within each byte). -/
def codeBitsMSB (L v : Nat) : List Bool :=
  (List.range L).map (fun j => v.testBit (L - 1 - j))

/-- The `k` low-order bits of `x`, LSB first. -/
def lowBits : Nat → Nat → List Bool
  | _, 0 => []
  | x, k + 1 => x.testBit 0 :: lowBits (x >>> 1) k

/-- The 8 bits of a byte, LSB first. -/
def byteBits (b : Nat) : List Bool := lowBits b 8

/-- The unread bit stream of an input state: the buffered bits first
(LSB first), then the bits of the remaining input bytes. -/
def streamBits (inp : List Nat) (s : InSt) : List Bool :=
  lowBits s.bitbuf s.bitcnt ++ ((inp.drop s.incnt).map byteBits).flatten

/-- The bit-level core of `decode()` (the `SLOW` variant in puff.c,
which the compiled fast variant optimizes): walk the code lengths,
pulling one stream bit per length; return the decoded symbol and the
number of bits consumed. -/
def decodeSpec (cnt : Nat → Nat) (sym : List Nat) :
    List Bool → Nat → Nat → Nat → Nat → Option (Nat × Nat)
  | bs, len, code, first, index =>
    if len > 15 then none
    else
      match bs with
      | [] => none
      | b :: rest =>
        let code' := code + (if b then 1 else 0)
        let count := cnt len
        if code' < first + count then
          some (sym.getD (index + (code' - first)) 0, len)
        else
          decodeSpec cnt sym rest (len + 1) (code' * 2) ((first + count) * 2)
            (index + count)

/-- Invariant of every reachable input state: at most 7 buffered bits,
and the bit position `8*incnt - bitcnt` is a genuine `Nat`. -/
def InsInv (s : InSt) : Prop :=
  s.bitcnt ≤ 7 ∧ s.bitcnt ≤ 8 * s.incnt

/-- The simulation relation between a decoding pass with an output
buffer of capacity `N` (`s`) and the scan-only pass (`t`): identical
input cursors and output counts; the full pass moreover keeps `outBuf`
in sync with `outcnt` (the buffer is append-only) and its capacity
fixed at `N`. -/
def Rel (N : Nat) (s t : St) : Prop :=
  s.ins = t.ins ∧ s.outcnt = t.outcnt ∧ s.hasOut = true ∧ t.hasOut = false
    ∧ s.outBuf.length = s.outcnt ∧ s.outlen = N

/-- Lift of `Rel` to the `Option (Int × St)` results of the block
decoders: both passes unwind together (`none`), or they return the
same code with related states. -/
def RelR (N : Nat) : Option (Int × St) → Option (Int × St) → Prop
  | none, none => True
  | some (e, s'), some (f, t') => e = f ∧ Rel N s' t'
  | _, _ => False

/-- Chained trace records starting at bit position `p`: each record
carries position `p`, a sized record advances `p` by its size, and a
record without a size (input exhausted inside the block) is last. -/
def TraceChain : Nat → List TraceRec → Prop
  | _, [] => True
  | p, r :: rest =>
    r.pos = p ∧
      match r.size with
      | none => rest = []
      | some sz => TraceChain (p + sz) rest

/-- A concrete gzip file: no optional header fields, a single stored
DEFLATE block containing the byte `0x00`, then the standard trailer
(CRC-32 of `[0x00]` little-endian, then ISIZE = 1). -/
def gzipExample : List Nat :=
  [0x1f, 0x8b, 0x08, 0x00, 0x00, 0x00, 0x00, 0x00, 0x00, 0x03,
   0x01, 0x01, 0x00, 0xfe, 0xff, 0x00,
   0x8d, 0xef, 0x02, 0xd2, 0x01, 0x00, 0x00, 0x00]

/-! # Theorems -/

/-- **C1** (code bug).  The claim says the value the gzip envelope
records as `CHECKSUM_CALCULATED` is the CRC-32 of the decompressed
bytes.  The code instead records the Adler-32 accumulator (utils.c has
no CRC-32 at all) while labelling it "CRC-32 Checksum Calculated".
On the concrete gzip file above (payload `[0x00]`), decoding succeeds,
the trailer bytes hold the correct little-endian CRC-32 `0xD202EF8D`,
but `CHECKSUM_CALCULATED` is the Adler-32 value `0x00010001`, which is
not the CRC-32 of the output. -/
theorem C1_gzip_checksum_calculated_is_adler_not_crc :
    (gzip_dump true 1 gzipExample).ret = 0 ∧
    (gzip_dump true 1 gzipExample).output = [0x00] ∧
    (gzip_dump true 1 gzipExample).checksumCalculated = some (adlerList 1 [0x00]) ∧
    adlerList 1 [0x00] = 0x00010001 ∧
    crc32 [0x00] = 0xD202EF8D ∧
    (gzip_dump true 1 gzipExample).checksumInFile =
      some [0x8d, 0xef, 0x02, 0xd2] ∧
    le32 [0x8d, 0xef, 0x02, 0xd2] = crc32 [0x00] ∧
    (gzip_dump true 1 gzipExample).checksumCalculated ≠ some (crc32 [0x00]) := by
  refine ⟨rfl, rfl, rfl, rfl, rfl, rfl, rfl, ?_⟩
  decide

/-- **C2** (counterexample).  The claim says a negative error from a
block decoder is always returned as-is by `puff()`.  On the input
`01 00 00 00 00` the single stored block fails with -2 (LEN + NLEN =
0 ≠ 65535), but because the failing block ends exactly at the end of
the input (bit position 40 = 8·5) the loop epilogue of `puff()`
overwrites the error with 0: `puff()` reports success in both scan
and buffered mode. -/
theorem C2_counterexample :
    bits [1, 0, 0, 0, 0] 1 ⟨0, 0, 0⟩ = some (1, ⟨1, 0, 7⟩) ∧
    bits [1, 0, 0, 0, 0] 2 ⟨1, 0, 7⟩ = some (0, ⟨1, 0, 5⟩) ∧
    (stored [1, 0, 0, 0, 0] ⟨false, 0, [], 0, 1, ⟨1, 0, 5⟩⟩).1 = -2 ∧
    (stored [1, 0, 0, 0, 0] ⟨true, 10, [], 0, 1, ⟨1, 0, 5⟩⟩).1 = -2 ∧
    (puff false 0 [1, 0, 0, 0, 0]).1 = 0 ∧
    (puff true 10 [1, 0, 0, 0, 0]).1 = 0 := by
  decide

/-- **C2** (amended).  Whenever a block decoder (stored, fixed,
dynamic, or the invalid-type branch) fails with a negative error code
and the input bit position at the end of the failing block differs
from `8 * sourcelen`, `puff()` returns that same negative code; only a
failing block ending exactly at the end of the input has its error
replaced by 0. -/
theorem C2_amended_negative_error_propagates
    (inp : List Nat) (fuel : Nat) (s : St) (blockStart : Nat) (tr : List TraceRec)
    (last ty : Nat) (ins1 ins2 : InSt) (err : Int) (s3 : St)
    (h1 : bits inp 1 s.ins = some (last, ins1))
    (h2 : bits inp 2 ins1 = some (ty, ins2))
    (hdisp : (if ty = 0 then some (stored inp { s with ins := ins2 })
              else if ty = 1 then fixed inp (8 * inp.length + 16) { s with ins := ins2 }
              else if ty = 2 then dynamic inp { s with ins := ins2 }
              else some (-1, { s with ins := ins2 })) = some (err, s3))
    (herr : err < 0)
    (hend : get_input_bit_position s3.ins ≠ 8 * inp.length) :
    (puffLoop inp (fuel + 1) s blockStart tr).1 = err := by
  have herr' : err ≠ 0 := by omega
  simp only [puffLoop, h1, h2, hdisp, hend, herr', if_false, if_true]
  simp [hend, herr']

/-- Witness for the amended C2: the same corrupt stored block followed
by one extra input byte, so the failing block no longer ends at the
input end; `puff()` now propagates the -2. -/
theorem C2_amended_witness :
    (puffLoop [1, 0, 0, 0, 0, 9] (63 + 1) (puffInit false 0) 0 []).1 = -2 := by
  apply C2_amended_negative_error_propagates [1, 0, 0, 0, 0, 9] 63
    (puffInit false 0) 0 [] 1 0 ⟨1, 0, 7⟩ ⟨1, 0, 5⟩ (-2)
    ⟨false, 0, [], 0, 1, ⟨5, 0, 0⟩⟩
  · decide
  · decide
  · decide
  · decide
  · decide

/-- **C3** (code bug).  The claim says every write into the output
buffer happens at an index below `outlen`, with return code 1 issued
before any out-of-range write.  In `stored()` the space check sits
inside the `while (len--)` loop and uses the already-decremented
`len`, so the last byte of a stored block is written even when the
buffer is full.  Concretely: capacity 0, stored block of LEN = 1 —
the byte `0xAB` is appended at index 0 (i.e. `out[0]` is written with
`outlen = 0`, out of bounds in C) and `puff()` returns 0, not 1. -/
theorem C3_stored_block_writes_past_outlen :
    (puff true 0 [1, 1, 0, 0xfe, 0xff, 0xab]).1 = 0 ∧
    (puff true 0 [1, 1, 0, 0xfe, 0xff, 0xab]).2.1.outBuf = [0xab] ∧
    (puff true 0 [1, 1, 0, 0xfe, 0xff, 0xab]).2.1.outcnt = 1 ∧
    (storedLoop [1, 1, 0, 0xfe, 0xff, 0xab] 1
        ⟨true, 0, [], 0, 1, ⟨5, 0, 0⟩⟩).1 = 0 ∧
    (storedLoop [1, 1, 0, 0xfe, 0xff, 0xab] 1
        ⟨true, 0, [], 0, 1, ⟨5, 0, 0⟩⟩).2.outBuf = [0xab] := by
  decide

/-- **C10**.  A zlib stream passing the CM = 8 and CINFO = 7 checks
whose check value fails (`CMF*256 + FLG` not divisible by 31) gets an
FCHECK record with description "check failed", and `zlib_dump` still
runs the DEFLATE decoder on the payload (its return value is exactly
the `puff()` result on the bytes after the 2-byte header). -/
theorem C10_zlib_bad_fcheck_nonfatal
    (hasOut : Bool) (outlen : Nat) (source : List Nat)
    (hcm : source.getD 0 0 &&& 0xF = 8)
    (hci : (source.getD 0 0 >>> 4) &&& 0xF = 7)
    (hchk : (source.getD 0 0 * 256 + source.getD 1 0) % 31 ≠ 0) :
    (zlib_dump hasOut outlen source).fcheckDesc = some "check failed" ∧
    (zlib_dump hasOut outlen source).deflateInvoked = true ∧
    (zlib_dump hasOut outlen source).ret = (puff hasOut outlen (source.drop 2)).1 := by
  have hd : decode_zlib_header source = (0, some "check failed") := by
    unfold decode_zlib_header
    simp only [hcm, hci, hchk]
    simp
    simpa using hchk
  unfold zlib_dump
  rw [hd]
  simp

/-! ### C4: classification of `construct()` by the left-recurrence -/

/-- Once `left` is negative the exit-free recurrence keeps it
negative (`2*left - count <= 2*left < 0`). -/
theorem leftFold_neg (cnt : Nat → Nat) :
    ∀ k j left, left < 0 → leftFold cnt k j left < 0 := by
  intro k
  induction k with
  | zero => intro j left h; simpa [leftFold] using h
  | succ k ih =>
    intro j left h
    simp only [leftFold]
    exact ih (j + 1) _ (by have : (0 : Int) ≤ cnt j := Int.ofNat_nonneg _; omega)

/-- The early-exit loop of `construct()` is negative exactly when the
exit-free recurrence ends negative, and agrees with it whenever it is
nonnegative. -/
theorem constructLoop_vs_leftFold (cnt : Nat → Nat) :
    ∀ k j left,
      (constructLoop cnt k j left < 0 ↔ leftFold cnt k j left < 0) ∧
      (0 ≤ constructLoop cnt k j left →
        constructLoop cnt k j left = leftFold cnt k j left) := by
  intro k
  induction k with
  | zero => intro j left; simp [constructLoop, leftFold]
  | succ k ih =>
    intro j left
    simp only [constructLoop, leftFold]
    by_cases hneg : 2 * left - (cnt j : Int) < 0
    · rw [if_pos hneg]
      have hfneg : leftFold cnt k (j + 1) (2 * left - (cnt j : Int)) < 0 :=
        leftFold_neg cnt k (j + 1) _ hneg
      exact ⟨⟨fun _ => hfneg, fun _ => hneg⟩, fun h => absurd hneg (by omega)⟩
    · rw [if_neg hneg]
      exact ih (j + 1) _

/-- Running the exit-free recurrence from length `j+1` with
accumulator `leftAt cnt j` for the remaining `15 - j` lengths lands on
`leftAt cnt 15`. -/
theorem leftFold_eq_leftAt (cnt : Nat → Nat) :
    ∀ k j, j + k = 15 → leftFold cnt k (j + 1) (leftAt cnt j) = leftAt cnt 15 := by
  intro k
  induction k with
  | zero => intro j h; subst_vars; simp [leftFold]
  | succ k ih =>
    intro j h
    have : leftFold cnt (k + 1) (j + 1) (leftAt cnt j)
        = leftFold cnt k (j + 2) (leftAt cnt (j + 1)) := by
      simp [leftFold, leftAt]
    rw [this]
    exact ih (j + 1) (by omega)

/-- **C4** (counterexample).  The claim classifies every length
vector by the left-recurrence: return 0 exactly when the final `left`
is 0.  For the all-zero vector `[0]` the recurrence ends at
`left = 2^15 = 32768` (incomplete, so the claim demands a positive
return), but `construct()` short-circuits the no-symbols case and
returns 0. -/
theorem C4_counterexample :
    construct [0] = 0 ∧ leftAt (lengthCount [0]) 15 = 32768 ∧
    ¬(construct [0] = 0 ↔ leftAt (lengthCount [0]) 15 = 0) := by
  refine ⟨by decide, by decide, ?_⟩
  intro h
  have := h.mp (by decide)
  revert this
  decide

/-- For a length vector with a nonzero entry, the sign of
`construct()` matches the sign of the final value of the exit-free
left-recurrence.  (Shared helper for several claims.) -/
theorem construct_classification
    (lengths : List Nat)
    (hnz : ∃ x ∈ lengths, x ≠ 0) :
    (construct lengths < 0 ↔ leftAt (lengthCount lengths) 15 < 0) ∧
    (construct lengths = 0 ↔ leftAt (lengthCount lengths) 15 = 0) ∧
    (0 < construct lengths ↔ 0 < leftAt (lengthCount lengths) 15) := by
  have hcount : ¬(lengths.length - lengths.count 0 = 0) := by
    intro h
    have hle : lengths.count 0 ≤ lengths.length := List.count_le_length 0 lengths
    have : lengths.count 0 = lengths.length := by omega
    have hall := List.count_eq_length.mp this
    obtain ⟨x, hx, hxne⟩ := hnz
    exact hxne (hall x hx).symm
  have hc : construct lengths = constructLoop (lengthCount lengths) 15 1 1 := by
    unfold construct
    simp [hcount]
  have hf : leftFold (lengthCount lengths) 15 1 1 = leftAt (lengthCount lengths) 15 := by
    have := leftFold_eq_leftAt (lengthCount lengths) 15 0 (by omega)
    simpa [leftAt] using this
  obtain ⟨hiff, heq⟩ := constructLoop_vs_leftFold (lengthCount lengths) 15 1 1
  rw [hc]
  rw [hf] at hiff heq
  refine ⟨hiff, ?_, ?_⟩
  · constructor
    · intro h0
      have := heq (by omega)
      omega
    · intro h0
      have : ¬constructLoop (lengthCount lengths) 15 1 1 < 0 := by
        rw [hiff]; omega
      have := heq (by omega)
      omega
  · constructor
    · intro h0
      have := heq (by omega)
      omega
    · intro h0
      have : ¬constructLoop (lengthCount lengths) 15 1 1 < 0 := by
        rw [hiff]; omega
      have := heq (by omega)
      omega

/-- **C4** (amended).  For every length vector with all entries at
most 15 *and at least one nonzero entry*, `construct()` classifies the
code exactly by the left-recurrence `left = 1`,
`left := left*2 - count[L]` for `L = 1..15`: it returns a negative
value iff the recurrence ever (equivalently: finally) goes negative,
zero iff the final value is zero, and a positive value iff the final
value is positive.  (The all-zero vector is the one exception, as
`C4_counterexample` shows.) -/
theorem C4_construct_classifies_by_left_recurrence
    (lengths : List Nat)
    (hb : ∀ x ∈ lengths, x ≤ 15)
    (hnz : ∃ x ∈ lengths, x ≠ 0) :
    (construct lengths < 0 ↔ leftAt (lengthCount lengths) 15 < 0) ∧
    (construct lengths = 0 ↔ leftAt (lengthCount lengths) 15 = 0) ∧
    (0 < construct lengths ↔ 0 < leftAt (lengthCount lengths) 15) :=
  construct_classification lengths hnz

/-- Witness for the amended C4: the complete one-bit code `[1,1]`
(two symbols of length 1): `construct` returns 0 and the recurrence
ends at 0. -/
theorem C4_witness :
    (construct [1, 1] < 0 ↔ leftAt (lengthCount [1, 1]) 15 < 0) ∧
    (construct [1, 1] = 0 ↔ leftAt (lengthCount [1, 1]) 15 = 0) ∧
    (0 < construct [1, 1] ↔ 0 < leftAt (lengthCount [1, 1]) 15) :=
  C4_construct_classifies_by_left_recurrence [1, 1] (by decide) (by decide)

/-! ### C5: incomplete codes in dynamic blocks -/

theorem count01_le (L : List Nat) : L.count 0 + L.count 1 ≤ L.length := by
  induction L with
  | nil => simp
  | cons a L ih =>
    simp only [List.count_cons, List.length_cons]
    by_cases h0 : a = 0 <;> by_cases h1 : a = 1 <;> simp [h0, h1] <;> omega

theorem count01_eq_iff (L : List Nat) :
    L.length = L.count 0 + L.count 1 ↔ ∀ x ∈ L, x = 0 ∨ x = 1 := by
  induction L with
  | nil => simp
  | cons a L ih =>
    have hle := count01_le L
    by_cases h0 : a = 0
    · subst h0
      have e0 : (0 :: L).count 0 = L.count 0 + 1 := by simp [List.count_cons]
      have e1 : (0 :: L).count 1 = L.count 1 := by simp [List.count_cons]
      rw [List.length_cons, e0, e1]
      constructor
      · intro h x hx
        rcases List.mem_cons.mp hx with rfl | hx
        · exact Or.inl rfl
        · exact ih.mp (by omega) x hx
      · intro h
        have := ih.mpr (fun x hx => h x (List.mem_cons_of_mem 0 hx))
        omega
    · by_cases h1 : a = 1
      · subst h1
        have e0 : (1 :: L).count 0 = L.count 0 := by simp [List.count_cons]
        have e1 : (1 :: L).count 1 = L.count 1 + 1 := by simp [List.count_cons]
        rw [List.length_cons, e0, e1]
        constructor
        · intro h x hx
          rcases List.mem_cons.mp hx with rfl | hx
          · exact Or.inr rfl
          · exact ih.mp (by omega) x hx
        · intro h
          have := ih.mpr (fun x hx => h x (List.mem_cons_of_mem 1 hx))
          omega
      · have e0 : (a :: L).count 0 = L.count 0 := by
          simp [List.count_cons, Ne.symm h0]
        have e1 : (a :: L).count 1 = L.count 1 := by
          simp [List.count_cons, Ne.symm h1]
        rw [List.length_cons, e0, e1]
        constructor
        · intro h
          omega
        · intro h
          rcases h a (List.mem_cons_self a L) with rfl | rfl
          · exact absurd rfl h0
          · exact absurd rfl h1

theorem filter_ne_zero_eq_replicate (L : List Nat)
    (h : ∀ x ∈ L, x = 0 ∨ x = 1) :
    L.filter (· ≠ 0) = List.replicate (L.count 1) 1 := by
  induction L with
  | nil => simp
  | cons a L ih =>
    have ha := h a (List.mem_cons_self a L)
    have ih' := ih (fun x hx => h x (List.mem_cons_of_mem a hx))
    rcases ha with rfl | rfl
    · have hf : (0 :: L).filter (· ≠ 0) = L.filter (· ≠ 0) := by
        simp [List.filter_cons]
      have hc : (0 :: L).count 1 = L.count 1 := by simp [List.count_cons]
      rw [hf, hc, ih']
    · have hf : (1 :: L).filter (· ≠ 0) = 1 :: L.filter (· ≠ 0) := by
        simp [List.filter_cons]
      have hc : (1 :: L).count 1 = L.count 1 + 1 := by simp [List.count_cons]
      rw [hf, hc, ih', List.replicate_succ]

theorem count_eq_zero_of_all01 (L : List Nat)
    (h : ∀ x ∈ L, x = 0 ∨ x = 1) (v : Nat) (hv : 2 ≤ v) : L.count v = 0 := by
  refine List.count_eq_zero.mpr (fun hmem => ?_)
  rcases h v hmem with rfl | rfl <;> omega

/-- If exactly two symbols have length 1 and nothing longer is used,
the left-recurrence ends at zero (the code `0`,`1` is complete). -/
theorem leftAt_eq_zero_two_one (cnt : Nat → Nat) (h1 : cnt 1 = 2)
    (h2 : ∀ l, 2 ≤ l → l ≤ 15 → cnt l = 0) : leftAt cnt 15 = 0 := by
  have key : ∀ k, k ≤ 14 → leftAt cnt (1 + k) = 0 := by
    intro k
    induction k with
    | zero => intro _; simp [leftAt, h1]
    | succ k ih =>
      intro hk
      have : 1 + (k + 1) = (1 + k) + 1 := by omega
      rw [this]
      show 2 * leftAt cnt (1 + k) - (cnt ((1 + k) + 1) : Int) = 0
      rw [ih (by omega), h2 ((1 + k) + 1) (by omega) (by omega)]
      omega
  simpa using key 14 (by omega)

theorem leftAt_neg_propagates (cnt : Nat → Nat) :
    ∀ k j, leftAt cnt j < 0 → leftAt cnt (j + k) < 0 := by
  intro k
  induction k with
  | zero => intro j h; simpa using h
  | succ k ih =>
    intro j h
    have := ih j h
    have hc : (0 : Int) ≤ cnt (j + k + 1) := Int.ofNat_nonneg _
    show 2 * leftAt cnt (j + k) - (cnt (j + k + 1) : Int) < 0
    omega

/-- If `construct` is positive the vector has a nonzero entry
(otherwise the no-symbols branch returns 0). -/
theorem construct_pos_nonzero (L : List Nat) (h : 0 < construct L) :
    ∃ x ∈ L, x ≠ 0 := by
  by_contra hc
  push_neg at hc
  have : L.count 0 = L.length := List.count_eq_length.mpr (fun b hb => (hc b hb).symm)
  have : construct L = 0 := by unfold construct; simp [this]
  omega

/-- An incomplete table (positive `construct`) passes the dynamic
block's rejection test iff it has exactly one used symbol, of code
length 1. -/
theorem incomplete_accept_iff (L : List Nat) (hpos : 0 < construct L) :
    (tableRejected L = false ↔ L.filter (· ≠ 0) = [1]) := by
  have hnz := construct_pos_nonzero L hpos
  have herr0 : construct L ≠ 0 := by omega
  have herrneg : ¬construct L < 0 := by omega
  have hrej : tableRejected L = false ↔ L.length = L.count 0 + L.count 1 := by
    simp only [tableRejected]
    simp [herr0, herrneg]
  rw [hrej]
  have hclass := construct_classification L hnz
  constructor
  · intro hn
    have hall := (count01_eq_iff L).mp hn
    have hfilter := filter_ne_zero_eq_replicate L hall
    have hcnt2 : ∀ l, 2 ≤ l → l ≤ 15 → lengthCount L l = 0 := by
      intro l hl _
      exact count_eq_zero_of_all01 L hall l hl
    -- the count of length-1 symbols must be exactly 1
    rcases Nat.lt_or_ge (L.count 1) 2 with hlt | hge
    · interval_cases h : L.count 1
      · -- zero used symbols contradicts hnz
        exfalso
        obtain ⟨x, hx, hxne⟩ := hnz
        rcases hall x hx with rfl | rfl
        · exact hxne rfl
        · have : (1 : Nat) ∉ L := List.count_eq_zero.mp h
          exact this hx
      · simpa [h] using hfilter
    · exfalso
      rcases Nat.lt_or_ge (L.count 1) 3 with hlt3 | hge3
      · -- exactly two: complete code, construct = 0
        have h2 : L.count 1 = 2 := by omega
        have : leftAt (lengthCount L) 15 = 0 :=
          leftAt_eq_zero_two_one (lengthCount L) (by simpa [lengthCount] using h2) hcnt2
        have := hclass.2.1.mpr this
        omega
      · -- three or more: over-subscribed, construct < 0
        have hneg1 : leftAt (lengthCount L) 1 < 0 := by
          show 2 * leftAt (lengthCount L) 0 - (lengthCount L 1 : Int) < 0
          simp only [leftAt]
          have : (3 : Int) ≤ lengthCount L 1 := by
            simp only [lengthCount]
            exact_mod_cast hge3
          omega
        have : leftAt (lengthCount L) 15 < 0 := by
          have := leftAt_neg_propagates (lengthCount L) 14 1 hneg1
          simpa using this
        have := hclass.1.mpr this
        omega
  · intro hf
    refine (count01_eq_iff L).mpr (fun x hx => ?_)
    by_cases hx0 : x = 0
    · exact Or.inl hx0
    · refine Or.inr ?_
      have : x ∈ L.filter (· ≠ 0) := by
        simp only [List.mem_filter]
        exact ⟨hx, by simpa using hx0⟩
      rw [hf] at this
      simpa using this

/-- **C5**.  In a dynamic block, an incomplete (positive `construct`)
literal/length or distance code passes the validation exactly when it
has one used symbol of code length 1; a rejected literal/length table
yields -7, a rejected distance table -8, and two accepted tables let
the block proceed. -/
theorem C5_incomplete_code_single_symbol_rule (litlens distlens : List Nat) :
    (0 < construct litlens →
      (tableRejected litlens = false ↔ litlens.filter (· ≠ 0) = [1])) ∧
    (0 < construct distlens →
      (tableRejected distlens = false ↔ distlens.filter (· ≠ 0) = [1])) ∧
    (tableRejected litlens = true → dynTableCheck litlens distlens = -7) ∧
    (tableRejected litlens = false → tableRejected distlens = true →
      dynTableCheck litlens distlens = -8) ∧
    (tableRejected litlens = false → tableRejected distlens = false →
      dynTableCheck litlens distlens = 0) := by
  refine ⟨fun h => incomplete_accept_iff litlens h,
          fun h => incomplete_accept_iff distlens h, ?_, ?_, ?_⟩
  · intro h; simp [dynTableCheck, h]
  · intro h1 h2; simp [dynTableCheck, h1, h2]
  · intro h1 h2; simp [dynTableCheck, h1, h2]

/-- Witness for C5: the incomplete single-symbol-length-1 table
`[1,0]` is accepted, the incomplete table `[2,2,0]` (two symbols of
length 2) is rejected, and the pair produces error -8. -/
theorem C5_witness :
    (tableRejected [1, 0] = false ↔ [1, 0].filter (· ≠ 0) = [1]) ∧
    (tableRejected [2, 2, 0] = false ↔ [2, 2, 0].filter (· ≠ 0) = [1]) ∧
    dynTableCheck [1, 0] [2, 2, 0] = -8 := by
  have h := C5_incomplete_code_single_symbol_rule [1, 0] [2, 2, 0]
  exact ⟨h.1 (by decide), h.2.1 (by decide),
         h.2.2.2.1 (by decide) (by decide)⟩

/-! ### C9: back-reference copies -/

/-- Full characterization of the one-byte-at-a-time copy loop: it
appends exactly `n` bytes, each read from `dist` positions back in the
*evolving* buffer, and feeds every appended byte to the checksum. -/
theorem backrefLoop_spec (dist : Nat) (hd : 1 ≤ dist) :
    ∀ (n : Nat) (s : St), s.outBuf.length = s.outcnt → dist ≤ s.outcnt →
      ∃ app : List Nat,
        (backrefLoop dist n s).outBuf = s.outBuf ++ app ∧
        app.length = n ∧
        (backrefLoop dist n s).outcnt = s.outcnt + n ∧
        (backrefLoop dist n s).adler = adlerList s.adler app ∧
        (backrefLoop dist n s).hasOut = s.hasOut ∧
        (backrefLoop dist n s).outlen = s.outlen ∧
        (backrefLoop dist n s).ins = s.ins ∧
        (∀ j, j < n → app.getD j 0 = (s.outBuf ++ app).getD (s.outcnt - dist + j) 0) := by
  intro n
  induction n with
  | zero =>
    intro s _ _
    exact ⟨[], by simp [backrefLoop], rfl, rfl, rfl, rfl, rfl, rfl, by omega⟩
  | succ n ih =>
    intro s hlen hdist
    set b := s.outBuf.getD (s.outcnt - dist) 0 with hb
    have hstep : backrefLoop dist (n + 1) s =
        backrefLoop dist n
          { s with outBuf := s.outBuf ++ [b],
                   adler := adler32 s.adler b,
                   outcnt := s.outcnt + 1 } := rfl
    obtain ⟨app, h1, h2, h3, h4, h5, h6, h7, h8⟩ :=
      ih { s with outBuf := s.outBuf ++ [b],
                  adler := adler32 s.adler b,
                  outcnt := s.outcnt + 1 }
        (by simp [hlen]) (by dsimp only; omega)
    refine ⟨b :: app, ?_, by simp [h2], by rw [hstep, h3]; dsimp only; omega,
            ?_, by rw [hstep]; exact h5, by rw [hstep]; exact h6,
            by rw [hstep]; exact h7, ?_⟩
    · rw [hstep, h1]
      simp
    · rw [hstep, h4]
      simp [adlerList]
    · intro j hj
      match j with
      | 0 =>
        have hidx : s.outcnt - dist < s.outBuf.length := by omega
        simp only [List.getD_cons_zero, Nat.add_zero]
        rw [List.getD_append _ _ _ _ hidx]
      | j + 1 =>
        have h := h8 j (by omega)
        have hl : ({ s with outBuf := s.outBuf ++ [b],
                            adler := adler32 s.adler b,
                            outcnt := s.outcnt + 1 } : St).outBuf ++ app
            = s.outBuf ++ b :: app := by simp
        have hidx : ({ s with outBuf := s.outBuf ++ [b],
                              adler := adler32 s.adler b,
                              outcnt := s.outcnt + 1 } : St).outcnt - dist + j
            = s.outcnt - dist + (j + 1) := by dsimp only; omega
        rw [hl, hidx] at h
        simpa using h

/-- With distance 1 the copy loop replicates the last emitted byte. -/
theorem backrefLoop_one_replicate :
    ∀ (n : Nat) (s : St), s.outBuf.length = s.outcnt → 1 ≤ s.outcnt →
      (backrefLoop 1 n s).outBuf
        = s.outBuf ++ List.replicate n (s.outBuf.getD (s.outcnt - 1) 0) := by
  intro n
  induction n with
  | zero => intro s _ _; simp [backrefLoop]
  | succ n ih =>
    intro s hlen hpos
    set b := s.outBuf.getD (s.outcnt - 1) 0 with hb
    have hstep : backrefLoop 1 (n + 1) s =
        backrefLoop 1 n
          { s with outBuf := s.outBuf ++ [b],
                   adler := adler32 s.adler b,
                   outcnt := s.outcnt + 1 } := rfl
    have hnext := ih { s with outBuf := s.outBuf ++ [b],
                              adler := adler32 s.adler b,
                              outcnt := s.outcnt + 1 }
      (by simp [hlen]) (by dsimp only; omega)
    rw [hstep, hnext]
    have hlast : (s.outBuf ++ [b]).getD (s.outcnt + 1 - 1) 0 = b := by
      have : s.outcnt + 1 - 1 = s.outBuf.length := by omega
      rw [this]
      simp [List.getD_append_right]
    simp only [hlast]
    simp [List.replicate_succ]

/-- **C9**.  For a decoded length/distance pair with an output buffer:
a distance beyond the bytes emitted so far fails with -11 before
touching the output; otherwise (with enough space) exactly `len` bytes
are appended, each one read from `output_length - dist` in the
evolving output (so overlapped copies re-read freshly written bytes),
each appended byte is fed to the Adler accumulator in order, and a
distance-1 copy replicates the last emitted byte `len` times. -/
theorem C9_backreference_copy (len dist : Nat) (s : St)
    (hout : s.hasOut = true) (hinv : s.outBuf.length = s.outcnt)
    (hd : 1 ≤ dist) :
    (dist > s.outcnt → backrefCopy len dist s = (-11, s)) ∧
    (dist ≤ s.outcnt → s.outcnt + len ≤ s.outlen →
      (backrefCopy len dist s).1 = 0 ∧
      ∃ app : List Nat,
        (backrefCopy len dist s).2.outBuf = s.outBuf ++ app ∧
        app.length = len ∧
        (backrefCopy len dist s).2.outcnt = s.outcnt + len ∧
        (backrefCopy len dist s).2.adler = adlerList s.adler app ∧
        (∀ j, j < len → app.getD j 0 = (s.outBuf ++ app).getD (s.outcnt - dist + j) 0) ∧
        (dist = 1 → app = List.replicate len (s.outBuf.getD (s.outcnt - 1) 0))) := by
  constructor
  · intro hfar
    unfold backrefCopy
    rw [if_pos hfar]
  · intro hnear hspace
    have hnotfar : ¬dist > s.outcnt := by omega
    have hnotover : ¬s.outcnt + len > s.outlen := by omega
    have hcopy : backrefCopy len dist s = (0, backrefLoop dist len s) := by
      unfold backrefCopy
      rw [if_neg hnotfar, hout]
      simp [hnotover]
    obtain ⟨app, h1, h2, h3, h4, _, _, _, h8⟩ :=
      backrefLoop_spec dist hd len s hinv hnear
    refine ⟨by rw [hcopy], app, by rw [hcopy]; exact h1, h2,
            by rw [hcopy]; exact h3, by rw [hcopy]; exact h4, h8, ?_⟩
    intro hd1
    subst hd1
    have := backrefLoop_one_replicate len s hinv hnear
    rw [this] at h1
    exact List.append_cancel_left h1.symm

/-- Witness for C9: from output `[7]` (one byte emitted), a
back-reference with distance 1 and length 258 appends 258 copies of
the byte 7. -/
theorem C9_witness :
    (backrefCopy 258 1 ⟨true, 300, [7], 1, 1, ⟨0, 0, 0⟩⟩).2.outBuf
      = [7] ++ List.replicate 258 7 := by
  obtain ⟨h0, app, hbuf, hlen, hcnt, had, hall, hone⟩ :=
    (C9_backreference_copy 258 1 ⟨true, 300, [7], 1, 1, ⟨0, 0, 0⟩⟩ rfl rfl
      (by decide)).2 (by decide) (by decide)
  rw [hbuf, hone rfl]
  rfl

/-! ### C8: trace bit positions.  The machinery below shows that the
input bit position `8*incnt - bitcnt` only moves forward through
`bits`, `decode` and the block decoders, and that the state invariant
`InsInv` (at most 7 buffered bits, position nonnegative) is
maintained; the `BLOCK_BIT_POSITION`/`BLOCK_BIT_SIZE` chain then
follows from the structure of the `puff()` loop. -/

/-- Loading loop accounting: on success the loop loaded `k` whole
bytes, ending with at least `need` buffered bits, and either loaded
nothing or stopped within 8 bits of `need`. -/
theorem bitsLoad_spec (inp : List Nat) (need : Nat) :
    ∀ fuel val incnt bitcnt val' incnt' bitcnt',
      bitsLoad inp need fuel val incnt bitcnt = some (val', incnt', bitcnt') →
      ∃ k, incnt' = incnt + k ∧ bitcnt' = bitcnt + 8 * k ∧ need ≤ bitcnt' ∧
        (k = 0 ∨ bitcnt' < need + 8) := by
  intro fuel
  induction fuel with
  | zero =>
    intro val incnt bitcnt val' incnt' bitcnt' h
    rw [bitsLoad] at h
    split at h
    · exact absurd h (by simp)
    · rename_i hge
      refine ⟨0, ?_⟩
      simp only [Option.some.injEq, Prod.mk.injEq] at h
      obtain ⟨_, h2, h3⟩ := h
      subst h2; subst h3
      exact ⟨rfl, by omega, by omega, Or.inl rfl⟩
  | succ fuel ih =>
    intro val incnt bitcnt val' incnt' bitcnt' h
    rw [bitsLoad] at h
    split at h
    · rename_i hlt
      split at h
      · exact absurd h (by simp)
      · obtain ⟨k, hk1, hk2, hk3, hk4⟩ := ih _ _ _ _ _ _ h
        refine ⟨k + 1, by omega, by omega, by omega, Or.inr ?_⟩
        rcases hk4 with rfl | hk4
        · omega
        · omega
    · rename_i hge
      refine ⟨0, ?_⟩
      simp only [Option.some.injEq, Prod.mk.injEq] at h
      obtain ⟨_, h2, h3⟩ := h
      subst h2; subst h3
      exact ⟨rfl, by omega, by omega, Or.inl rfl⟩

/-- `bits` advances the input position by exactly `need` and preserves
the state invariant. -/
theorem bits_spec (inp : List Nat) (need : Nat) (s : InSt) (v : Nat) (s' : InSt)
    (h : bits inp need s = some (v, s')) (hinv : InsInv s) :
    InsInv s' ∧
    get_input_bit_position s' = get_input_bit_position s + need ∧
    s.incnt ≤ s'.incnt := by
  unfold bits at h
  obtain ⟨h7, h8⟩ := hinv
  cases hload : bitsLoad inp need need s.bitbuf s.incnt s.bitcnt with
  | none => rw [hload] at h; exact absurd h (by simp)
  | some r =>
    obtain ⟨val, incnt1, bitcnt1⟩ := r
    rw [hload] at h
    simp only [Option.some.injEq, Prod.mk.injEq] at h
    obtain ⟨_, hs'⟩ := h
    obtain ⟨k, hk1, hk2, hk3, hk4⟩ := bitsLoad_spec inp need _ _ _ _ _ _ _ hload
    subst hs'
    unfold InsInv get_input_bit_position
    simp only
    refine ⟨⟨?_, ?_⟩, ?_, ?_⟩ <;> omega

/-- Core accounting for the fast `decode()` loop: starting below
entry cursor `n0` with entry bit count `bitcnt0 ≤ 7` and
`bitcnt0 ≤ 8*n0` (the reachable-state invariant), any `some` result
satisfies the invariant again and its bit position is at least the
entry position `8*n0 - bitcnt0`. -/
theorem decodeGo_spec (inp : List Nat) (cnt : Nat → Nat) (sym : List Nat)
    (bitbuf0 bitcnt0 n0 : Nat) (h7 : bitcnt0 ≤ 7) (h8n : bitcnt0 ≤ 8 * n0) :
    ∀ fuel bitbuf left code first index len incnt sy s',
      decodeGo inp cnt sym bitbuf0 bitcnt0 fuel bitbuf left code first index len incnt
        = some (sy, s') →
      1 ≤ len → n0 ≤ incnt → (incnt = n0 → len - 1 + left ≤ bitcnt0) →
      n0 ≤ s'.incnt ∧ s'.bitcnt ≤ 7 ∧ s'.bitcnt ≤ 8 * s'.incnt ∧
      8 * n0 - bitcnt0 ≤ 8 * s'.incnt - s'.bitcnt := by
  intro fuel
  induction fuel with
  | zero =>
    intro _ _ _ _ _ _ _ _ _ h
    exact absurd h (by simp [decodeGo])
  | succ fuel ih =>
    intro bitbuf left code first index len incnt sy s' h hlen hmono hbudget
    simp only [decodeGo] at h
    split at h
    · -- left = 0: reload or -10
      split at h
      · -- 16 - len = 0: return -10 with the stale buffer fields
        simp only [Option.some.injEq, Prod.mk.injEq] at h
        obtain ⟨_, hs'⟩ := h
        subst hs'
        simp only
        refine ⟨hmono, h7, by omega, by omega⟩
      · split at h
        · exact absurd h (by simp)
        · -- load one byte and continue
          rename_i hl0 _ _
          exact ih _ _ _ _ _ _ _ _ _ h hlen (by omega) (by omega)
    · -- bit-consuming step
      split at h
      · -- symbol found
        simp only [Option.some.injEq, Prod.mk.injEq] at h
        obtain ⟨_, hs'⟩ := h
        subst hs'
        simp only
        rename_i hleft _
        by_cases hn : incnt = n0
        · subst hn
          have hbl := hbudget rfl
          have hmod : (bitcnt0 + 120 - len) % 8 = bitcnt0 - len := by omega
          refine ⟨le_refl _, by omega, by omega, by omega⟩
        · refine ⟨hmono, by omega, by omega, by omega⟩
      · -- next length
        rename_i hleft _
        exact ih _ _ _ _ _ _ _ _ _ h (by omega) hmono (by omega)

/-- `decode` preserves the input-state invariant and never moves the
bit position backwards. -/
theorem decode_spec (inp : List Nat) (cnt : Nat → Nat) (sym : List Nat)
    (s : InSt) (sy : Int) (s' : InSt)
    (h : decode inp cnt sym s = some (sy, s')) (hinv : InsInv s) :
    InsInv s' ∧ get_input_bit_position s ≤ get_input_bit_position s' := by
  obtain ⟨h7, h8⟩ := hinv
  have := decodeGo_spec inp cnt sym s.bitbuf s.bitcnt s.incnt h7 h8
    64 s.bitbuf s.bitcnt 0 0 0 1 s.incnt sy s' h (by omega) (le_refl _)
    (by intro _; omega)
  obtain ⟨hm, hb7, hb8, hpos⟩ := this
  exact ⟨⟨hb7, hb8⟩, by unfold get_input_bit_position; omega⟩

/-- The copy loop leaves the input state untouched. -/
theorem backrefLoop_ins (dist : Nat) :
    ∀ n s, (backrefLoop dist n s).ins = s.ins := by
  intro n
  induction n with
  | zero => intro s; rfl
  | succ n ih => intro s; exact ih _

/-- The back-reference tail leaves the input state untouched. -/
theorem backrefCopy_ins (len dist : Nat) (s : St) :
    (backrefCopy len dist s).2.ins = s.ins := by
  unfold backrefCopy
  split
  · rfl
  · split
    · split
      · rfl
      · exact backrefLoop_ins dist len s
    · rfl

/-- The stored-block copy loop only advances `incnt`. -/
theorem storedLoop_spec (inp : List Nat) :
    ∀ n s, (storedLoop inp n s).2.ins.bitcnt = s.ins.bitcnt ∧
      s.ins.incnt ≤ (storedLoop inp n s).2.ins.incnt := by
  intro n
  induction n with
  | zero => intro s; exact ⟨rfl, le_refl _⟩
  | succ n ih =>
    intro s
    show (storedLoop inp (n + 1) s).2.ins.bitcnt = s.ins.bitcnt ∧ _
    rw [storedLoop]
    split
    · split
      · exact ⟨rfl, by simp⟩
      · obtain ⟨h1, h2⟩ := ih _
        refine ⟨h1, ?_⟩
        simp only at h2 ⊢
        omega
    · obtain ⟨h1, h2⟩ := ih _
      refine ⟨h1, ?_⟩
      simp only at h2 ⊢
      omega

/-- `stored` ends byte-aligned (invariant trivially restored) with
the position not behind the entry position. -/
theorem stored_spec (inp : List Nat) (s : St) :
    InsInv (stored inp s).2.ins ∧
    get_input_bit_position s.ins ≤ get_input_bit_position (stored inp s).2.ins := by
  simp only [stored]
  split
  · refine ⟨⟨?_, ?_⟩, ?_⟩
    · dsimp only; omega
    · dsimp only; omega
    · simp only [get_input_bit_position]; omega
  · split
    · refine ⟨⟨?_, ?_⟩, ?_⟩
      · dsimp only; omega
      · dsimp only; omega
      · simp only [get_input_bit_position]; omega
    · split
      · refine ⟨⟨?_, ?_⟩, ?_⟩
        · dsimp only; omega
        · dsimp only; omega
        · simp only [get_input_bit_position]; omega
      · obtain ⟨h1, h2⟩ := storedLoop_spec inp
          (inp.getD s.ins.incnt 0 ||| inp.getD (s.ins.incnt + 1) 0 <<< 8)
          ⟨s.hasOut, s.outlen, s.outBuf, s.outcnt, s.adler, ⟨s.ins.incnt + 4, 0, 0⟩⟩
        dsimp only at h1 h2
        refine ⟨⟨?_, ?_⟩, ?_⟩
        · omega
        · omega
        · simp only [get_input_bit_position]
          omega

/-- `codesLoop` preserves the invariant and never rewinds the
position. -/
theorem codesLoop_spec (inp : List Nat) (lencnt : Nat → Nat) (lensym : List Nat)
    (distcnt : Nat → Nat) (distsym : List Nat) :
    ∀ fuel s e s',
      codesLoop inp lencnt lensym distcnt distsym fuel s = some (e, s') →
      InsInv s.ins →
      InsInv s'.ins ∧ get_input_bit_position s.ins ≤ get_input_bit_position s'.ins := by
  intro fuel
  induction fuel with
  | zero =>
    intro s e s' h
    exact absurd h (by simp [codesLoop])
  | succ fuel ih =>
    intro s e s' h hinv
    rw [codesLoop] at h
    cases hdec : decode inp lencnt lensym s.ins with
    | none => rw [hdec] at h; exact absurd h (by simp)
    | some r =>
      obtain ⟨symbol, ins1⟩ := r
      rw [hdec] at h
      obtain ⟨hinv1, hpos1⟩ := decode_spec inp lencnt lensym s.ins symbol ins1 hdec hinv
      simp only at h
      split at h
      · -- symbol < 0
        simp only [Option.some.injEq, Prod.mk.injEq] at h
        obtain ⟨_, hs'⟩ := h
        subst hs'
        exact ⟨hinv1, hpos1⟩
      · split at h
        · -- literal
          split at h
          · simp only [Option.some.injEq, Prod.mk.injEq] at h
            obtain ⟨_, hs'⟩ := h
            subst hs'
            exact ⟨hinv1, hpos1⟩
          · split at h <;>
            · obtain ⟨hinv2, hpos2⟩ := ih _ _ _ h hinv1
              exact ⟨hinv2, le_trans hpos1 hpos2⟩
        · split at h
          · -- symbol = 256
            simp only [Option.some.injEq, Prod.mk.injEq] at h
            obtain ⟨_, hs'⟩ := h
            subst hs'
            exact ⟨hinv1, hpos1⟩
          · split at h
            · -- invalid fixed code
              simp only [Option.some.injEq, Prod.mk.injEq] at h
              obtain ⟨_, hs'⟩ := h
              subst hs'
              exact ⟨hinv1, hpos1⟩
            · cases hbx : bits inp (lext.getD (symbol - 257).toNat 0) ins1 with
              | none => rw [hbx] at h; exact absurd h (by simp)
              | some r2 =>
                obtain ⟨len_extra, ins2⟩ := r2
                rw [hbx] at h
                obtain ⟨hinv2, hpos2, _⟩ :=
                  bits_spec inp _ ins1 len_extra ins2 hbx hinv1
                simp only at h
                cases hdec2 : decode inp distcnt distsym ins2 with
                | none => rw [hdec2] at h; exact absurd h (by simp)
                | some r3 =>
                  obtain ⟨dsymbol, ins3⟩ := r3
                  rw [hdec2] at h
                  obtain ⟨hinv3, hpos3⟩ :=
                    decode_spec inp distcnt distsym ins2 dsymbol ins3 hdec2 hinv2
                  simp only at h
                  split at h
                  · simp only [Option.some.injEq, Prod.mk.injEq] at h
                    obtain ⟨_, hs'⟩ := h
                    subst hs'
                    refine ⟨hinv3, ?_⟩
                    dsimp only
                    omega
                  · cases hbx2 : bits inp (dext.getD dsymbol.toNat 0) ins3 with
                    | none => rw [hbx2] at h; exact absurd h (by simp)
                    | some r4 =>
                      obtain ⟨dist_extra, ins4⟩ := r4
                      rw [hbx2] at h
                      obtain ⟨hinv4, hpos4, _⟩ :=
                        bits_spec inp _ ins3 dist_extra ins4 hbx2 hinv3
                      simp only at h
                      split at h
                      · -- copy succeeded, continue the loop
                        rename_i hr0
                        obtain ⟨hinv5, hpos5⟩ := ih _ _ _ h (by
                          rw [backrefCopy_ins]
                          exact hinv4)
                        rw [backrefCopy_ins] at hpos5
                        exact ⟨hinv5, by simp only at hpos5; omega⟩
                      · -- copy returned 1 or -11
                        simp only [Option.some.injEq] at h
                        have hs' := congrArg Prod.snd h
                        dsimp only at hs'
                        rw [← hs', backrefCopy_ins]
                        refine ⟨hinv4, ?_⟩
                        dsimp only
                        omega

/-- The code-length-code reading loop preserves the invariant and
moves forward. -/
theorem clenRead_spec (inp : List Nat) :
    ∀ k index lengths ins lengths' ins',
      clenRead inp k index lengths ins = some (lengths', ins') →
      InsInv ins →
      InsInv ins' ∧ get_input_bit_position ins ≤ get_input_bit_position ins' := by
  intro k
  induction k with
  | zero =>
    intro index lengths ins lengths' ins' h hinv
    simp only [clenRead, Option.some.injEq, Prod.mk.injEq] at h
    obtain ⟨_, h2⟩ := h
    subst h2
    exact ⟨hinv, le_refl _⟩
  | succ k ih =>
    intro index lengths ins lengths' ins' h hinv
    rw [clenRead] at h
    cases hb : bits inp 3 ins with
    | none => rw [hb] at h; exact absurd h (by simp)
    | some r =>
      obtain ⟨v, ins1⟩ := r
      rw [hb] at h
      obtain ⟨hinv1, hpos1, _⟩ := bits_spec inp 3 ins v ins1 hb hinv
      obtain ⟨hinv2, hpos2⟩ := ih _ _ _ _ _ h hinv1
      exact ⟨hinv2, by omega⟩

/-- The literal/length + distance code-length reading loop preserves
the invariant and moves forward. -/
theorem lensRead_spec (inp : List Nat) (cnt : Nat → Nat) (sym : List Nat)
    (total : Nat) :
    ∀ fuel index lengths ins res ins',
      lensRead inp cnt sym total fuel index lengths ins = some (res, ins') →
      InsInv ins →
      InsInv ins' ∧ get_input_bit_position ins ≤ get_input_bit_position ins' := by
  intro fuel
  induction fuel with
  | zero =>
    intro index lengths ins res ins' h
    exact absurd h (by simp [lensRead])
  | succ fuel ih =>
    intro index lengths ins res ins' h hinv
    rw [lensRead] at h
    split at h
    · cases hdec : decode inp cnt sym ins with
      | none => rw [hdec] at h; exact absurd h (by simp)
      | some r =>
        obtain ⟨symbol, ins1⟩ := r
        rw [hdec] at h
        obtain ⟨hinv1, hpos1⟩ := decode_spec inp cnt sym ins symbol ins1 hdec hinv
        simp only at h
        split at h
        · simp only [Option.some.injEq, Prod.mk.injEq] at h
          obtain ⟨_, h2⟩ := h
          subst h2
          exact ⟨hinv1, hpos1⟩
        · split at h
          · obtain ⟨hinv2, hpos2⟩ := ih _ _ _ _ _ h hinv1
            exact ⟨hinv2, by omega⟩
          · split at h
            · split at h
              · simp only [Option.some.injEq, Prod.mk.injEq] at h
                obtain ⟨_, h2⟩ := h
                subst h2
                exact ⟨hinv1, hpos1⟩
              · cases hb : bits inp 2 ins1 with
                | none => rw [hb] at h; exact absurd h (by simp)
                | some r2 =>
                  obtain ⟨v, ins2⟩ := r2
                  rw [hb] at h
                  obtain ⟨hinv2, hpos2, _⟩ := bits_spec inp 2 ins1 v ins2 hb hinv1
                  simp only at h
                  split at h
                  · simp only [Option.some.injEq, Prod.mk.injEq] at h
                    obtain ⟨_, h2⟩ := h
                    subst h2
                    exact ⟨hinv2, by omega⟩
                  · obtain ⟨hinv3, hpos3⟩ := ih _ _ _ _ _ h hinv2
                    exact ⟨hinv3, by omega⟩
            · split at h
              · cases hb : bits inp 3 ins1 with
                | none => rw [hb] at h; exact absurd h (by simp)
                | some r2 =>
                  obtain ⟨v, ins2⟩ := r2
                  rw [hb] at h
                  obtain ⟨hinv2, hpos2, _⟩ := bits_spec inp 3 ins1 v ins2 hb hinv1
                  simp only at h
                  split at h
                  · simp only [Option.some.injEq, Prod.mk.injEq] at h
                    obtain ⟨_, h2⟩ := h
                    subst h2
                    exact ⟨hinv2, by omega⟩
                  · obtain ⟨hinv3, hpos3⟩ := ih _ _ _ _ _ h hinv2
                    exact ⟨hinv3, by omega⟩
              · cases hb : bits inp 7 ins1 with
                | none => rw [hb] at h; exact absurd h (by simp)
                | some r2 =>
                  obtain ⟨v, ins2⟩ := r2
                  rw [hb] at h
                  obtain ⟨hinv2, hpos2, _⟩ := bits_spec inp 7 ins1 v ins2 hb hinv1
                  simp only at h
                  split at h
                  · simp only [Option.some.injEq, Prod.mk.injEq] at h
                    obtain ⟨_, h2⟩ := h
                    subst h2
                    exact ⟨hinv2, by omega⟩
                  · obtain ⟨hinv3, hpos3⟩ := ih _ _ _ _ _ h hinv2
                    exact ⟨hinv3, by omega⟩
    · simp only [Option.some.injEq, Prod.mk.injEq] at h
      obtain ⟨_, h2⟩ := h
      subst h2
      exact ⟨hinv, le_refl _⟩

/-- `dynamic` preserves the invariant and moves forward. -/
theorem dynamic_spec (inp : List Nat) (s : St) (e : Int) (s' : St)
    (h : dynamic inp s = some (e, s')) (hinv : InsInv s.ins) :
    InsInv s'.ins ∧
    get_input_bit_position s.ins ≤ get_input_bit_position s'.ins := by
  unfold dynamic at h
  cases hb1 : bits inp 5 s.ins with
  | none => rw [hb1] at h; exact absurd h (by simp)
  | some r1 =>
    obtain ⟨v1, ins1⟩ := r1
    rw [hb1] at h
    dsimp only at h
    obtain ⟨hinv1, hpos1, _⟩ := bits_spec inp 5 s.ins v1 ins1 hb1 hinv
    cases hb2 : bits inp 5 ins1 with
    | none => rw [hb2] at h; exact absurd h (by simp)
    | some r2 =>
      obtain ⟨v2, ins2⟩ := r2
      rw [hb2] at h
      dsimp only at h
      obtain ⟨hinv2, hpos2, _⟩ := bits_spec inp 5 ins1 v2 ins2 hb2 hinv1
      cases hb3 : bits inp 4 ins2 with
      | none => rw [hb3] at h; exact absurd h (by simp)
      | some r3 =>
        obtain ⟨v3, ins3⟩ := r3
        rw [hb3] at h
        dsimp only at h
        obtain ⟨hinv3, hpos3, _⟩ := bits_spec inp 4 ins2 v3 ins3 hb3 hinv2
        split at h
        · simp only [Option.some.injEq, Prod.mk.injEq] at h
          obtain ⟨_, h2⟩ := h
          subst h2
          exact ⟨hinv3, by dsimp only; omega⟩
        · cases hc : clenRead inp (v3 + 4) 0 (fun _ => 0)
              ({ s with ins := ins3 } : St).ins with
          | none => rw [hc] at h; exact absurd h (by simp)
          | some rc =>
            obtain ⟨clengths, ins4⟩ := rc
            rw [hc] at h
            dsimp only at h
            obtain ⟨hinv4, hpos4⟩ :=
              clenRead_spec inp (v3 + 4) 0 (fun _ => 0) _ clengths ins4 hc
                (by dsimp only; exact hinv3)
            dsimp only at hpos4
            split at h
            · simp only [Option.some.injEq, Prod.mk.injEq] at h
              obtain ⟨_, h2⟩ := h
              subst h2
              exact ⟨hinv4, by dsimp only; omega⟩
            · cases hl : lensRead inp
                  (lengthCount ((List.range 19).map clengths))
                  (mkSymbol ((List.range 19).map clengths))
                  (v1 + 257 + (v2 + 1)) (v1 + 257 + (v2 + 1) + 1) 0 clengths
                  ({ ({ s with ins := ins3 } : St) with ins := ins4 } : St).ins with
              | none => rw [hl] at h; exact absurd h (by simp)
              | some rl =>
                obtain ⟨res, ins5⟩ := rl
                rw [hl] at h
                obtain ⟨hinv5, hpos5⟩ :=
                  lensRead_spec inp _ _ _ _ _ _ _ res ins5 hl
                    (by dsimp only; exact hinv4)
                dsimp only at hpos5
                cases res with
                | error e2 =>
                  simp only [Option.some.injEq, Prod.mk.injEq] at h
                  obtain ⟨_, h2⟩ := h
                  subst h2
                  exact ⟨hinv5, by dsimp only; omega⟩
                | ok lengths =>
                  simp only at h
                  split at h
                  · simp only [Option.some.injEq, Prod.mk.injEq] at h
                    obtain ⟨_, h2⟩ := h
                    subst h2
                    exact ⟨hinv5, by dsimp only; omega⟩
                  · split at h
                    · simp only [Option.some.injEq, Prod.mk.injEq] at h
                      obtain ⟨_, h2⟩ := h
                      subst h2
                      exact ⟨hinv5, by dsimp only; omega⟩
                    · obtain ⟨hinv6, hpos6⟩ :=
                        codesLoop_spec inp _ _ _ _ _ _ e s' h
                          (by dsimp only; exact hinv5)
                      dsimp only at hpos6
                      exact ⟨hinv6, by omega⟩

/-- Any result of the per-block dispatch of `puff()` satisfies the
invariant and does not move the position backwards. -/
theorem dispatch_spec (inp : List Nat) (ty : Nat) (s2 : St) (err : Int) (s3 : St)
    (h : (if ty = 0 then some (stored inp s2)
          else if ty = 1 then fixed inp (8 * inp.length + 16) s2
          else if ty = 2 then dynamic inp s2
          else some (-1, s2)) = some (err, s3))
    (hinv : InsInv s2.ins) :
    InsInv s3.ins ∧
    get_input_bit_position s2.ins ≤ get_input_bit_position s3.ins := by
  split at h
  · have h2 := congrArg Prod.snd (Option.some.inj h)
    dsimp only at h2
    obtain ⟨ha, hb⟩ := stored_spec inp s2
    rw [h2] at ha hb
    exact ⟨ha, hb⟩
  · split at h
    · exact codesLoop_spec inp _ _ _ _ _ _ err s3 h hinv
    · split at h
      · exact dynamic_spec inp s2 err s3 h hinv
      · have h2 := congrArg Prod.snd (Option.some.inj h)
        dsimp only at h2
        rw [← h2]
        exact ⟨hinv, le_refl _⟩

/-- The trace appended by the `puff()` loop, started at
`blockStart = ` the current bit position, is a chain: every record
carries the running position, sized records advance it by their size,
and an unsized (truncated) record is last. -/
theorem puffLoop_trace (inp : List Nat) :
    ∀ fuel s blockStart tr,
      InsInv s.ins → blockStart = get_input_bit_position s.ins →
      ∃ Δ, (puffLoop inp fuel s blockStart tr).2.2 = tr ++ Δ ∧
        TraceChain blockStart Δ := by
  intro fuel
  induction fuel with
  | zero =>
    intro s blockStart tr _ _
    exact ⟨[], by simp [puffLoop], trivial⟩
  | succ fuel ih =>
    intro s blockStart tr hinv hbs
    rw [puffLoop]
    cases hb1 : bits inp 1 s.ins with
    | none => exact ⟨[], by simp, trivial⟩
    | some r1 =>
      obtain ⟨last, ins1⟩ := r1
      obtain ⟨hinv1, hpos1, _⟩ := bits_spec inp 1 s.ins last ins1 hb1 hinv
      dsimp only
      cases hb2 : bits inp 2 ins1 with
      | none =>
        exact ⟨[⟨blockStart, none⟩], by simp, ⟨rfl, rfl⟩⟩
      | some r2 =>
        obtain ⟨ty, ins2⟩ := r2
        obtain ⟨hinv2, hpos2, _⟩ := bits_spec inp 2 ins1 ty ins2 hb2 hinv1
        dsimp only
        cases hres : (if ty = 0 then some (stored inp { s with ins := ins2 })
            else if ty = 1 then fixed inp (8 * inp.length + 16) { s with ins := ins2 }
            else if ty = 2 then dynamic inp { s with ins := ins2 }
            else some (-1, { s with ins := ins2 })) with
        | none =>
          exact ⟨[⟨blockStart, none⟩], by simp, ⟨rfl, rfl⟩⟩
        | some rr =>
          obtain ⟨err, s3⟩ := rr
          obtain ⟨hinv3, hpos3⟩ := dispatch_spec inp ty _ err s3 hres
            (by dsimp only; exact hinv2)
          dsimp only at hpos3
          have hend : blockStart ≤ get_input_bit_position s3.ins := by omega
          dsimp only
          split
          · exact ⟨[⟨blockStart, some (get_input_bit_position s3.ins - blockStart)⟩],
              by simp, ⟨rfl, trivial⟩⟩
          · split
            · exact ⟨[⟨blockStart, some (get_input_bit_position s3.ins - blockStart)⟩],
                by simp, ⟨rfl, trivial⟩⟩
            · split
              · exact ⟨[⟨blockStart, some (get_input_bit_position s3.ins - blockStart)⟩],
                  by simp, ⟨rfl, trivial⟩⟩
              · obtain ⟨Δ, hΔ1, hΔ2⟩ := ih s3 (get_input_bit_position s3.ins)
                  (tr ++ [⟨blockStart, some (get_input_bit_position s3.ins - blockStart)⟩])
                  hinv3 rfl
                refine ⟨⟨blockStart, some (get_input_bit_position s3.ins - blockStart)⟩ :: Δ,
                  ?_, rfl, ?_⟩
                · rw [hΔ1]
                  simp
                · show TraceChain (blockStart + (get_input_bit_position s3.ins - blockStart)) Δ
                  have heq : blockStart + (get_input_bit_position s3.ins - blockStart)
                      = get_input_bit_position s3.ins := by omega
                  rw [heq]
                  exact hΔ2

/-- A trace chain yields the adjacency property record by record. -/
theorem traceChain_adjacent :
    ∀ (tr : List TraceRec) (p : Nat), TraceChain p tr →
      ∀ i, i + 1 < tr.length →
        ∃ sz, (tr.getD i ⟨0, none⟩).size = some sz ∧
          (tr.getD (i + 1) ⟨0, none⟩).pos = (tr.getD i ⟨0, none⟩).pos + sz := by
  intro tr
  induction tr with
  | nil => intro p _ i hi; simp at hi
  | cons r rest ih =>
    intro p hchain i hi
    obtain ⟨hpos, hrest⟩ := hchain
    cases hsz : r.size with
    | none =>
      rw [hsz] at hrest
      simp only at hrest
      subst hrest
      simp at hi
    | some sz =>
      rw [hsz] at hrest
      simp only at hrest
      match i with
      | 0 =>
        cases rest with
        | nil => simp at hi
        | cons r' rest' =>
          obtain ⟨hpos', _⟩ := hrest
          exact ⟨sz, by simpa using hsz, by simp [hpos, hpos']⟩
      | i + 1 =>
        have := ih (p + sz) hrest i (by simpa using hi)
        simpa using this

/-- **C8**.  In every trace produced by `puff()`, each pair of
consecutive block records satisfies
`pos₂ = pos₁ + size₁` (in particular every record except possibly the
last has a `BLOCK_BIT_SIZE`), and the recorded positions are
monotonically non-decreasing. -/
theorem C8_trace_positions_chain (hasOut : Bool) (outlen : Nat) (inp : List Nat)
    (i : Nat) (h : i + 1 < (puff hasOut outlen inp).2.2.length) :
    ∃ sz,
      (((puff hasOut outlen inp).2.2).getD i ⟨0, none⟩).size = some sz ∧
      (((puff hasOut outlen inp).2.2).getD (i + 1) ⟨0, none⟩).pos
        = (((puff hasOut outlen inp).2.2).getD i ⟨0, none⟩).pos + sz ∧
      (((puff hasOut outlen inp).2.2).getD i ⟨0, none⟩).pos
        ≤ (((puff hasOut outlen inp).2.2).getD (i + 1) ⟨0, none⟩).pos := by
  obtain ⟨Δ, hΔ1, hΔ2⟩ := puffLoop_trace inp (8 * inp.length + 16)
    (puffInit hasOut outlen) 0 [] (by refine ⟨?_, ?_⟩ <;> simp [puffInit, InsInv]) rfl
  have htr : (puff hasOut outlen inp).2.2 = Δ := by
    unfold puff
    rw [hΔ1]
    simp
  rw [htr] at h ⊢
  obtain ⟨sz, h1, h2⟩ := traceChain_adjacent Δ 0 hΔ2 i h
  exact ⟨sz, h1, h2, by omega⟩

/-- Witness for C8: two stored blocks (an empty non-final one, then an
empty final one); the first record is (0, size 40) and the second
starts at bit 40. -/
theorem C8_witness :
    ∃ sz,
      (((puff false 0 [0, 0, 0, 0xff, 0xff, 1, 0, 0, 0xff, 0xff]).2.2).getD 0
          ⟨0, none⟩).size = some sz ∧
      (((puff false 0 [0, 0, 0, 0xff, 0xff, 1, 0, 0, 0xff, 0xff]).2.2).getD 1
          ⟨0, none⟩).pos
        = (((puff false 0 [0, 0, 0, 0xff, 0xff, 1, 0, 0, 0xff, 0xff]).2.2).getD 0
            ⟨0, none⟩).pos + sz ∧
      (((puff false 0 [0, 0, 0, 0xff, 0xff, 1, 0, 0, 0xff, 0xff]).2.2).getD 0
          ⟨0, none⟩).pos
        ≤ (((puff false 0 [0, 0, 0, 0xff, 0xff, 1, 0, 0, 0xff, 0xff]).2.2).getD 1
            ⟨0, none⟩).pos :=
  C8_trace_positions_chain false 0 [0, 0, 0, 0xff, 0xff, 1, 0, 0, 0xff, 0xff] 0
    (by decide)

/-! ### C7: scan-only mode versus decoding with a buffer.  The two
passes are related by `Rel` (same input cursor and output count); the
capacity hypotheses below make the buffered pass's space checks pass,
using the crude per-step output bounds (a stored block emits at most
`inp.length` bytes, a `codes` iteration at most 258). -/

/-- `bits` returns fewer than `2^need`. -/
theorem bits_lt (inp : List Nat) (need : Nat) (s : InSt) (v : Nat) (s' : InSt)
    (h : bits inp need s = some (v, s')) : v < 2 ^ need := by
  unfold bits at h
  cases hl : bitsLoad inp need need s.bitbuf s.incnt s.bitcnt with
  | none => rw [hl] at h; exact absurd h (by simp)
  | some r =>
    obtain ⟨val, incnt1, bitcnt1⟩ := r
    rw [hl] at h
    simp only [Option.some.injEq, Prod.mk.injEq] at h
    obtain ⟨hv, _⟩ := h
    have hle : val &&& (2 ^ need - 1) ≤ 2 ^ need - 1 := Nat.and_le_right
    have hpos : 1 ≤ 2 ^ need := Nat.one_le_two_pow
    omega

/-- Field accounting for the back-reference copy loop. -/
theorem backrefLoop_fields (dist : Nat) :
    ∀ n s, (backrefLoop dist n s).outcnt = s.outcnt + n ∧
      (backrefLoop dist n s).hasOut = s.hasOut ∧
      (backrefLoop dist n s).outlen = s.outlen ∧
      (backrefLoop dist n s).outBuf.length = s.outBuf.length + n := by
  intro n
  induction n with
  | zero => intro s; exact ⟨rfl, rfl, rfl, rfl⟩
  | succ n ih =>
    intro s
    obtain ⟨h1, h2, h3, h4⟩ := ih
      { s with outBuf := s.outBuf ++ [s.outBuf.getD (s.outcnt - dist) 0],
               adler := adler32 s.adler (s.outBuf.getD (s.outcnt - dist) 0),
               outcnt := s.outcnt + 1 }
    refine ⟨?_, ?_, ?_, ?_⟩
    · rw [show backrefLoop dist (n + 1) s = backrefLoop dist n _ from rfl, h1]
      dsimp only
      omega
    · rw [show backrefLoop dist (n + 1) s = backrefLoop dist n _ from rfl, h2]
    · rw [show backrefLoop dist (n + 1) s = backrefLoop dist n _ from rfl, h3]
    · rw [show backrefLoop dist (n + 1) s = backrefLoop dist n _ from rfl, h4]
      simp only [List.length_append, List.length_cons, List.length_nil]
      omega

/-- In scan mode the stored-block loop always copies all `n` bytes,
advancing `incnt` and `outcnt` by `n`. -/
theorem storedLoop_scan (inp : List Nat) :
    ∀ n t, t.hasOut = false →
      (storedLoop inp n t).1 = 0 ∧
      (storedLoop inp n t).2 =
        { t with ins := ⟨t.ins.incnt + n, t.ins.bitbuf, t.ins.bitcnt⟩,
                 outcnt := t.outcnt + n } := by
  intro n
  induction n with
  | zero =>
    intro t _
    exact ⟨rfl, rfl⟩
  | succ n ih =>
    intro t ht
    have hstep : storedLoop inp (n + 1) t =
        storedLoop inp n
          { t with ins := ⟨t.ins.incnt + 1, t.ins.bitbuf, t.ins.bitcnt⟩,
                   outcnt := t.outcnt + 1 } := by
      rw [storedLoop]
      rw [ht]
      simp
    obtain ⟨h1, h2⟩ := ih
      { t with ins := ⟨t.ins.incnt + 1, t.ins.bitbuf, t.ins.bitcnt⟩,
               outcnt := t.outcnt + 1 } ht
    rw [hstep]
    refine ⟨h1, ?_⟩
    rw [h2]
    have e1 : t.ins.incnt + 1 + n = t.ins.incnt + (n + 1) := by omega
    have e2 : t.outcnt + 1 + n = t.outcnt + (n + 1) := by omega
    simp only [e1, e2]

/-- Simulation of the stored-block loop: with enough space, both
modes return the same code and stay related. -/
theorem storedLoop_sim (N : Nat) (inp : List Nat) :
    ∀ n s t, Rel N s t → t.outcnt + n ≤ N →
      (storedLoop inp n s).1 = (storedLoop inp n t).1 ∧
      Rel N (storedLoop inp n s).2 (storedLoop inp n t).2 := by
  intro n
  induction n with
  | zero => intro s t hrel _; exact ⟨rfl, hrel⟩
  | succ n ih =>
    intro s t hrel hcap
    obtain ⟨hins, hcnt, hsOut, htOut, hlen, hON⟩ := hrel
    have hsstep : storedLoop inp (n + 1) s =
        if s.outcnt + n > s.outlen then
          (1, { s with ins := { s.ins with incnt := s.ins.incnt + 1 } })
        else storedLoop inp n
          { s with ins := { s.ins with incnt := s.ins.incnt + 1 },
                   outBuf := s.outBuf ++ [inp.getD s.ins.incnt 0],
                   adler := adler32 s.adler (inp.getD s.ins.incnt 0),
                   outcnt := s.outcnt + 1 } := by
      rw [storedLoop, hsOut]
      simp
    have htstep : storedLoop inp (n + 1) t =
        storedLoop inp n
          { t with ins := { t.ins with incnt := t.ins.incnt + 1 },
                   outcnt := t.outcnt + 1 } := by
      rw [storedLoop, htOut]
      simp
    have hspace : ¬s.outcnt + n > s.outlen := by omega
    rw [hsstep, htstep, if_neg hspace]
    refine ih _ _ ⟨?_, ?_, hsOut, htOut, ?_, ?_⟩ ?_
    · dsimp only; rw [hins]
    · dsimp only; omega
    · dsimp only; simp [hlen, hcnt]
    · dsimp only; exact hON
    · dsimp only; omega

/-- Simulation for a whole stored block: with
`t.outcnt + inp.length ≤ s.outlen` both modes return the same code
and stay related. -/
theorem stored_sim (N : Nat) (inp : List Nat) (s t : St) (hrel : Rel N s t)
    (hcap : t.outcnt + inp.length ≤ N) :
    (stored inp s).1 = (stored inp t).1 ∧
    Rel N (stored inp s).2 (stored inp t).2 := by
  obtain ⟨hins, hcnt, hsOut, htOut, hlen, hON⟩ := hrel
  simp only [stored, hins]
  split
  · exact ⟨rfl, ⟨by dsimp only, by dsimp only; omega, hsOut, htOut,
      by dsimp only; omega, by dsimp only; exact hON⟩⟩
  · split
    · exact ⟨rfl, ⟨by dsimp only, by dsimp only; omega, hsOut, htOut,
        by dsimp only; omega, by dsimp only; exact hON⟩⟩
    · split
      · exact ⟨rfl, ⟨by dsimp only, by dsimp only; omega, hsOut, htOut,
          by dsimp only; omega, by dsimp only; exact hON⟩⟩
      · rename_i hlenok
        refine storedLoop_sim N inp _ _ _ ⟨?_, ?_, hsOut, htOut, ?_, ?_⟩ ?_
        · dsimp only
        · dsimp only; omega
        · dsimp only; simp [hlen, hcnt]
        · dsimp only; exact hON
        · dsimp only
          omega

/-- Scan-mode output growth of a stored block is bounded by the input
length (the copy is guarded by `incnt + len <= inp.length`). -/
theorem stored_growth_scan (inp : List Nat) (t : St) (ht : t.hasOut = false) :
    (stored inp t).2.outcnt ≤ t.outcnt + inp.length := by
  simp only [stored]
  split
  · dsimp only; omega
  · split
    · dsimp only; omega
    · split
      · dsimp only; omega
      · rename_i hok
        obtain ⟨_, h2⟩ := storedLoop_scan inp
          (inp.getD t.ins.incnt 0 ||| inp.getD (t.ins.incnt + 1) 0 <<< 8)
          ⟨t.hasOut, t.outlen, t.outBuf, t.outcnt, t.adler, ⟨t.ins.incnt + 4, 0, 0⟩⟩
          ht
        rw [h2]
        dsimp only
        simp only [not_lt, not_le] at hok
        omega

/-- A decoded match length never exceeds 258: for every length symbol
`sy < 29`, `lens[sy] + (2^lext[sy] - 1) ≤ 258`. -/
theorem backref_len_le (sy : Nat) (hsy : sy < 29) (extra : Nat)
    (hx : extra < 2 ^ (lext.getD sy 0)) :
    lens.getD sy 0 + extra ≤ 258 := by
  have h29 : ∀ k < 29, lens.getD k 0 + 2 ^ (lext.getD k 0) ≤ 259 := by decide
  have := h29 sy hsy
  omega

/-- The back-reference tail grows the output count by at most `len`. -/
theorem backrefCopy_outcnt (len dist : Nat) (s : St) :
    (backrefCopy len dist s).2.outcnt ≤ s.outcnt + len := by
  unfold backrefCopy
  split
  · dsimp only; omega
  · split
    · split
      · dsimp only; omega
      · dsimp only
        have := (backrefLoop_fields dist len s).1
        omega
    · dsimp only; omega

/-- Each `codes()` iteration grows the output count by at most 258
(one literal byte, or one match of length at most 258). -/
theorem codesLoop_growth (inp : List Nat) (lencnt : Nat → Nat) (lensym : List Nat)
    (distcnt : Nat → Nat) (distsym : List Nat) :
    ∀ fuel t e t',
      codesLoop inp lencnt lensym distcnt distsym fuel t = some (e, t') →
      t'.outcnt ≤ t.outcnt + 258 * fuel := by
  intro fuel
  induction fuel with
  | zero =>
    intro t e t' h
    exact absurd h (by simp [codesLoop])
  | succ fuel ih =>
    intro t e t' h
    rw [codesLoop] at h
    cases hdec : decode inp lencnt lensym t.ins with
    | none => rw [hdec] at h; exact absurd h (by simp)
    | some r =>
      obtain ⟨symbol, ins1⟩ := r
      rw [hdec] at h
      simp only at h
      split at h
      · simp only [Option.some.injEq, Prod.mk.injEq] at h
        obtain ⟨_, ht'⟩ := h
        subst ht'
        dsimp only
        omega
      · split at h
        · split at h
          · simp only [Option.some.injEq, Prod.mk.injEq] at h
            obtain ⟨_, ht'⟩ := h
            subst ht'
            dsimp only
            omega
          · split at h <;>
            · have := ih _ _ _ h
              dsimp only at this
              omega
        · split at h
          · simp only [Option.some.injEq, Prod.mk.injEq] at h
            obtain ⟨_, ht'⟩ := h
            subst ht'
            dsimp only
            omega
          · split at h
            · simp only [Option.some.injEq, Prod.mk.injEq] at h
              obtain ⟨_, ht'⟩ := h
              subst ht'
              dsimp only
              omega
            · rename_i hsy
              cases hbx : bits inp (lext.getD (symbol - 257).toNat 0) ins1 with
              | none => rw [hbx] at h; exact absurd h (by simp)
              | some r2 =>
                obtain ⟨len_extra, ins2⟩ := r2
                rw [hbx] at h
                simp only at h
                have hlen258 : lens.getD (symbol - 257).toNat 0 + len_extra ≤ 258 :=
                  backref_len_le _ (by omega) _
                    (bits_lt inp _ ins1 len_extra ins2 hbx)
                cases hdec2 : decode inp distcnt distsym ins2 with
                | none => rw [hdec2] at h; exact absurd h (by simp)
                | some r3 =>
                  obtain ⟨dsymbol, ins3⟩ := r3
                  rw [hdec2] at h
                  simp only at h
                  split at h
                  · simp only [Option.some.injEq, Prod.mk.injEq] at h
                    obtain ⟨_, ht'⟩ := h
                    subst ht'
                    dsimp only
                    omega
                  · cases hbx2 : bits inp (dext.getD dsymbol.toNat 0) ins3 with
                    | none => rw [hbx2] at h; exact absurd h (by simp)
                    | some r4 =>
                      obtain ⟨dist_extra, ins4⟩ := r4
                      rw [hbx2] at h
                      simp only at h
                      have hcp := backrefCopy_outcnt
                        (lens.getD (symbol - 257).toNat 0 + len_extra)
                        (dists.getD dsymbol.toNat 0 + dist_extra)
                        { t with ins := ins4 }
                      dsimp only at hcp
                      split at h
                      · have := ih _ _ _ h
                        omega
                      · simp only [Option.some.injEq] at h
                        have ht' := congrArg Prod.snd h
                        dsimp only at ht'
                        subst ht'
                        omega

/-- `dynamic()` grows the output count by at most `258` per `codes()`
iteration; the header phases write nothing. -/
theorem dynamic_growth (inp : List Nat) (t : St) (e : Int) (t' : St)
    (h : dynamic inp t = some (e, t')) :
    t'.outcnt ≤ t.outcnt + 258 * (8 * inp.length + 16) := by
  unfold dynamic at h
  cases hb1 : bits inp 5 t.ins with
  | none => rw [hb1] at h; exact absurd h (by simp)
  | some r1 =>
    obtain ⟨v1, ins1⟩ := r1
    rw [hb1] at h
    dsimp only at h
    cases hb2 : bits inp 5 ins1 with
    | none => rw [hb2] at h; exact absurd h (by simp)
    | some r2 =>
      obtain ⟨v2, ins2⟩ := r2
      rw [hb2] at h
      dsimp only at h
      cases hb3 : bits inp 4 ins2 with
      | none => rw [hb3] at h; exact absurd h (by simp)
      | some r3 =>
        obtain ⟨v3, ins3⟩ := r3
        rw [hb3] at h
        dsimp only at h
        split at h
        · simp only [Option.some.injEq, Prod.mk.injEq] at h
          obtain ⟨_, h2⟩ := h
          subst h2
          dsimp only
          omega
        · cases hc : clenRead inp (v3 + 4) 0 (fun _ => 0)
              ({ t with ins := ins3 } : St).ins with
          | none => rw [hc] at h; exact absurd h (by simp)
          | some rc =>
            obtain ⟨clengths, ins4⟩ := rc
            rw [hc] at h
            dsimp only at h
            split at h
            · simp only [Option.some.injEq, Prod.mk.injEq] at h
              obtain ⟨_, h2⟩ := h
              subst h2
              dsimp only
              omega
            · cases hl : lensRead inp
                  (lengthCount ((List.range 19).map clengths))
                  (mkSymbol ((List.range 19).map clengths))
                  (v1 + 257 + (v2 + 1)) (v1 + 257 + (v2 + 1) + 1) 0 clengths
                  ({ ({ t with ins := ins3 } : St) with ins := ins4 } : St).ins with
              | none => rw [hl] at h; exact absurd h (by simp)
              | some rl =>
                obtain ⟨res, ins5⟩ := rl
                rw [hl] at h
                cases res with
                | error e2 =>
                  simp only [Option.some.injEq, Prod.mk.injEq] at h
                  obtain ⟨_, h2⟩ := h
                  subst h2
                  dsimp only
                  omega
                | ok lengths =>
                  simp only at h
                  split at h
                  · simp only [Option.some.injEq, Prod.mk.injEq] at h
                    obtain ⟨_, h2⟩ := h
                    subst h2
                    dsimp only
                    omega
                  · split at h
                    · simp only [Option.some.injEq, Prod.mk.injEq] at h
                      obtain ⟨_, h2⟩ := h
                      subst h2
                      dsimp only
                      omega
                    · have := codesLoop_growth inp _ _ _ _ _ _ e t' h
                      dsimp only at this
                      omega

/-- `backrefCopy` when the distance reaches back before the start of
the output. -/
theorem backrefCopy_toofar (len dist : Nat) (s : St) (h : dist > s.outcnt) :
    backrefCopy len dist s = (-11, s) := by
  unfold backrefCopy
  rw [if_pos h]

/-- `backrefCopy` in scan mode just advances the output count. -/
theorem backrefCopy_scan (len dist : Nat) (t : St) (h : ¬ dist > t.outcnt)
    (ht : t.hasOut = false) :
    backrefCopy len dist t = (0, { t with outcnt := t.outcnt + len }) := by
  unfold backrefCopy
  rw [if_neg h, if_neg (show ¬(t.hasOut = true) by simp [ht])]

/-- `backrefCopy` with an output buffer and enough space runs the
copy loop. -/
theorem backrefCopy_full (len dist : Nat) (s : St) (h : ¬ dist > s.outcnt)
    (hs : s.hasOut = true) (hsp : ¬ s.outcnt + len > s.outlen) :
    backrefCopy len dist s = (0, backrefLoop dist len s) := by
  unfold backrefCopy
  rw [if_neg h, if_pos hs, if_neg hsp]

/-- Simulation of the `codes()` loop: with capacity for 258 output
bytes per remaining iteration, the buffered pass and the scan pass
unwind together or return the same code with related states. -/
theorem codesLoop_sim (N : Nat) (inp : List Nat) (lencnt : Nat → Nat)
    (lensym : List Nat) (distcnt : Nat → Nat) (distsym : List Nat) :
    ∀ fuel s t, Rel N s t → t.outcnt + 258 * fuel ≤ N →
      RelR N (codesLoop inp lencnt lensym distcnt distsym fuel s)
             (codesLoop inp lencnt lensym distcnt distsym fuel t) := by
  intro fuel
  induction fuel with
  | zero =>
    intro s t _ _
    simp only [codesLoop]
    exact trivial
  | succ fuel ih =>
    intro s t hrel hcap
    obtain ⟨hins, hcnt, hsOut, htOut, hlen, hON⟩ := hrel
    simp only [codesLoop]
    rw [hins]
    cases hdec : decode inp lencnt lensym t.ins with
    | none =>
      exact trivial
    | some r =>
      obtain ⟨symbol, ins1⟩ := r
      dsimp only
      by_cases hneg : symbol < 0
      · rw [if_pos hneg, if_pos hneg]
        exact ⟨rfl, rfl, hcnt, hsOut, htOut, hlen, hON⟩
      · rw [if_neg hneg, if_neg hneg]
        by_cases hlit : symbol < 256
        · rw [if_pos hlit, if_pos hlit]
          have hcs : ¬(s.hasOut = true ∧ s.outcnt = s.outlen) := by
            rintro ⟨-, h2⟩
            omega
          have hct : ¬(t.hasOut = true ∧ t.outcnt = t.outlen) := by
            rintro ⟨h1, -⟩
            rw [htOut] at h1
            cases h1
          rw [if_neg hcs, if_neg hct]
          split
          · split
            · rename_i hto
              rw [htOut] at hto
              cases hto
            · apply ih
              · exact ⟨rfl, by dsimp only; omega, hsOut, htOut,
                  by dsimp only; simp [hlen, hcnt], hON⟩
              · dsimp only
                omega
          · rename_i hso
            rw [hsOut] at hso
            exact absurd rfl hso
        · rw [if_neg hlit, if_neg hlit]
          by_cases h256 : symbol = 256
          · rw [if_pos h256, if_pos h256]
            exact ⟨rfl, rfl, hcnt, hsOut, htOut, hlen, hON⟩
          · rw [if_neg h256, if_neg h256]
            by_cases hsy : 29 ≤ (symbol - 257).toNat
            · rw [if_pos hsy, if_pos hsy]
              exact ⟨rfl, rfl, hcnt, hsOut, htOut, hlen, hON⟩
            · rw [if_neg hsy, if_neg hsy]
              cases hbx : bits inp (lext.getD (symbol - 257).toNat 0) ins1 with
              | none =>
                exact trivial
              | some r2 =>
                obtain ⟨len_extra, ins2⟩ := r2
                dsimp only
                have hL : lens.getD (symbol - 257).toNat 0 + len_extra ≤ 258 :=
                  backref_len_le _ (by omega) _
                    (bits_lt inp _ ins1 len_extra ins2 hbx)
                cases hdec2 : decode inp distcnt distsym ins2 with
                | none =>
                  exact trivial
                | some r3 =>
                  obtain ⟨dsymbol, ins3⟩ := r3
                  dsimp only
                  by_cases hd : dsymbol < 0
                  · rw [if_pos hd, if_pos hd]
                    exact ⟨rfl, rfl, hcnt, hsOut, htOut, hlen, hON⟩
                  · rw [if_neg hd, if_neg hd]
                    cases hbx2 : bits inp (dext.getD dsymbol.toNat 0) ins3 with
                    | none =>
                      exact trivial
                    | some r4 =>
                      obtain ⟨dist_extra, ins4⟩ := r4
                      dsimp only
                      by_cases hdist :
                          dists.getD dsymbol.toNat 0 + dist_extra > t.outcnt
                      · have hrs := backrefCopy_toofar
                          (lens.getD (symbol - 257).toNat 0 + len_extra)
                          (dists.getD dsymbol.toNat 0 + dist_extra)
                          ({ s with ins := ins4 } : St) (by dsimp only; omega)
                        have hrt := backrefCopy_toofar
                          (lens.getD (symbol - 257).toNat 0 + len_extra)
                          (dists.getD dsymbol.toNat 0 + dist_extra)
                          ({ t with ins := ins4 } : St) (by dsimp only; exact hdist)
                        rw [hrs, hrt]
                        dsimp only
                        have hne : ¬((-11 : Int) = 0) := by decide
                        rw [if_neg hne, if_neg hne]
                        exact ⟨rfl, rfl, hcnt, hsOut, htOut, hlen, hON⟩
                      · have hrt := backrefCopy_scan
                          (lens.getD (symbol - 257).toNat 0 + len_extra)
                          (dists.getD dsymbol.toNat 0 + dist_extra)
                          ({ t with ins := ins4 } : St) (by dsimp only; exact hdist)
                          htOut
                        have hrs := backrefCopy_full
                          (lens.getD (symbol - 257).toNat 0 + len_extra)
                          (dists.getD dsymbol.toNat 0 + dist_extra)
                          ({ s with ins := ins4 } : St) (by dsimp only; omega)
                          hsOut (by dsimp only; omega)
                        rw [hrs, hrt]
                        dsimp only
                        have h00 : (0 : Int) = 0 := rfl
                        rw [if_pos h00, if_pos h00]
                        have hbf := backrefLoop_fields
                          (dists.getD dsymbol.toNat 0 + dist_extra)
                          (lens.getD (symbol - 257).toNat 0 + len_extra)
                          ({ s with ins := ins4 } : St)
                        obtain ⟨hbf1, hbf2, hbf3, hbf4⟩ := hbf
                        apply ih
                        · refine ⟨?_, ?_, ?_, htOut, ?_, ?_⟩
                          · rw [backrefLoop_ins]
                          · rw [hbf1]
                            dsimp only
                            omega
                          · rw [hbf2]
                            exact hsOut
                          · rw [hbf4, hbf1]
                            dsimp only
                            omega
                          · rw [hbf3]
                            exact hON
                        · dsimp only
                          omega

/-- Simulation of a dynamic block: the header phases only touch the
input cursor, so the two passes agree there; the `codes()` phase is
`codesLoop_sim`. -/
theorem dynamic_sim (N : Nat) (inp : List Nat) (s t : St) (hrel : Rel N s t)
    (hcap : t.outcnt + 258 * (8 * inp.length + 16) ≤ N) :
    RelR N (dynamic inp s) (dynamic inp t) := by
  obtain ⟨hins, hcnt, hsOut, htOut, hlen, hON⟩ := hrel
  simp only [dynamic]
  rw [hins]
  cases hb1 : bits inp 5 t.ins with
  | none => exact trivial
  | some r1 =>
    obtain ⟨v1, ins1⟩ := r1
    dsimp only
    cases hb2 : bits inp 5 ins1 with
    | none => exact trivial
    | some r2 =>
      obtain ⟨v2, ins2⟩ := r2
      dsimp only
      cases hb3 : bits inp 4 ins2 with
      | none => exact trivial
      | some r3 =>
        obtain ⟨v3, ins3⟩ := r3
        dsimp only
        by_cases hbad : v1 + 257 > 286 ∨ v2 + 1 > 30
        · rw [if_pos hbad, if_pos hbad]
          exact ⟨rfl, rfl, hcnt, hsOut, htOut, hlen, hON⟩
        · rw [if_neg hbad, if_neg hbad]
          cases hc : clenRead inp (v3 + 4) 0 (fun _ => 0) ins3 with
          | none => exact trivial
          | some rc =>
            obtain ⟨clengths, ins4⟩ := rc
            dsimp only
            by_cases hc4 : construct ((List.range 19).map clengths) ≠ 0
            · rw [if_pos hc4, if_pos hc4]
              exact ⟨rfl, rfl, hcnt, hsOut, htOut, hlen, hON⟩
            · rw [if_neg hc4, if_neg hc4]
              cases hl : lensRead inp
                  (lengthCount ((List.range 19).map clengths))
                  (mkSymbol ((List.range 19).map clengths))
                  (v1 + 257 + (v2 + 1)) (v1 + 257 + (v2 + 1) + 1) 0
                  clengths ins4 with
              | none => exact trivial
              | some rl =>
                obtain ⟨res, ins5⟩ := rl
                cases res with
                | error e2 =>
                  dsimp only
                  exact ⟨rfl, rfl, hcnt, hsOut, htOut, hlen, hON⟩
                | ok lengths =>
                  dsimp only
                  by_cases h2560 : lengths 256 = 0
                  · rw [if_pos h2560, if_pos h2560]
                    exact ⟨rfl, rfl, hcnt, hsOut, htOut, hlen, hON⟩
                  · rw [if_neg h2560, if_neg h2560]
                    by_cases hchk : dynTableCheck
                        ((List.range (v1 + 257)).map lengths)
                        ((List.range (v2 + 1)).map
                          (fun i => lengths (v1 + 257 + i))) ≠ 0
                    · rw [if_pos hchk, if_pos hchk]
                      exact ⟨rfl, rfl, hcnt, hsOut, htOut, hlen, hON⟩
                    · rw [if_neg hchk, if_neg hchk]
                      exact codesLoop_sim N inp _ _ _ _ (8 * inp.length + 16) _ _
                        ⟨rfl, hcnt, hsOut, htOut, hlen, hON⟩
                        (by dsimp only; exact hcap)

/-- Simulation of the whole block loop: with capacity for the crude
per-iteration bound (one stored block emits at most `inp.length`
bytes, `fixed`/`dynamic` at most 258 per `codes()` iteration), the
buffered pass and the scan pass return the same code, stay related,
and emit the same trace. -/
theorem puffLoop_sim (N : Nat) (inp : List Nat) :
    ∀ fuel s t blockStart tr, Rel N s t →
      t.outcnt + fuel * (inp.length + 258 * (8 * inp.length + 16)) ≤ N →
      (puffLoop inp fuel s blockStart tr).1 =
        (puffLoop inp fuel t blockStart tr).1 ∧
      Rel N (puffLoop inp fuel s blockStart tr).2.1
        (puffLoop inp fuel t blockStart tr).2.1 ∧
      (puffLoop inp fuel s blockStart tr).2.2 =
        (puffLoop inp fuel t blockStart tr).2.2 := by
  intro fuel
  induction fuel with
  | zero =>
    intro s t blockStart tr hrel _
    exact ⟨rfl, hrel, rfl⟩
  | succ fuel ih =>
    intro s t blockStart tr hrel hcap
    obtain ⟨hins, hcnt, hsOut, htOut, hlen, hON⟩ := hrel
    have hsucc : (fuel + 1) * (inp.length + 258 * (8 * inp.length + 16)) =
        fuel * (inp.length + 258 * (8 * inp.length + 16)) +
          (inp.length + 258 * (8 * inp.length + 16)) := Nat.succ_mul _ _
    simp only [puffLoop]
    rw [hins]
    cases hb1 : bits inp 1 t.ins with
    | none => exact ⟨rfl, ⟨hins, hcnt, hsOut, htOut, hlen, hON⟩, rfl⟩
    | some rb1 =>
      obtain ⟨last, ins1⟩ := rb1
      dsimp only
      cases hb2 : bits inp 2 ins1 with
      | none => exact ⟨rfl, ⟨rfl, hcnt, hsOut, htOut, hlen, hON⟩, rfl⟩
      | some rb2 =>
        obtain ⟨ty, ins2⟩ := rb2
        dsimp only
        have hrel2 : Rel N ({ s with ins := ins2 } : St)
            ({ t with ins := ins2 } : St) :=
          ⟨rfl, hcnt, hsOut, htOut, hlen, hON⟩
        have hdisp : RelR N
            (if ty = 0 then some (stored inp ({ s with ins := ins2 } : St))
             else if ty = 1 then
               fixed inp (8 * inp.length + 16) ({ s with ins := ins2 } : St)
             else if ty = 2 then dynamic inp ({ s with ins := ins2 } : St)
             else some (-1, ({ s with ins := ins2 } : St)))
            (if ty = 0 then some (stored inp ({ t with ins := ins2 } : St))
             else if ty = 1 then
               fixed inp (8 * inp.length + 16) ({ t with ins := ins2 } : St)
             else if ty = 2 then dynamic inp ({ t with ins := ins2 } : St)
             else some (-1, ({ t with ins := ins2 } : St))) := by
          by_cases h0 : ty = 0
          · rw [if_pos h0, if_pos h0]
            have hst := stored_sim N inp _ _ hrel2 (by dsimp only; omega)
            exact ⟨hst.1, hst.2⟩
          · rw [if_neg h0, if_neg h0]
            by_cases h1 : ty = 1
            · rw [if_pos h1, if_pos h1]
              exact codesLoop_sim N inp _ _ _ _ (8 * inp.length + 16) _ _
                hrel2 (by dsimp only; omega)
            · rw [if_neg h1, if_neg h1]
              by_cases h2 : ty = 2
              · rw [if_pos h2, if_pos h2]
                exact dynamic_sim N inp _ _ hrel2 (by dsimp only; omega)
              · rw [if_neg h2, if_neg h2]
                exact ⟨rfl, hrel2⟩
        have hgrow : ∀ f t3,
            (if ty = 0 then some (stored inp ({ t with ins := ins2 } : St))
             else if ty = 1 then
               fixed inp (8 * inp.length + 16) ({ t with ins := ins2 } : St)
             else if ty = 2 then dynamic inp ({ t with ins := ins2 } : St)
             else some (-1, ({ t with ins := ins2 } : St))) = some (f, t3) →
            t3.outcnt ≤ t.outcnt +
              (inp.length + 258 * (8 * inp.length + 16)) := by
          intro f t3 hft
          by_cases h0 : ty = 0
          · rw [if_pos h0] at hft
            simp only [Option.some.injEq] at hft
            have h2 := congrArg Prod.snd hft
            have hg := stored_growth_scan inp ({ t with ins := ins2 } : St) htOut
            rw [h2] at hg
            dsimp only at hg
            omega
          · rw [if_neg h0] at hft
            by_cases h1 : ty = 1
            · rw [if_pos h1] at hft
              have hg := codesLoop_growth inp fixedLencnt fixedLensym
                fixedDistcnt fixedDistsym (8 * inp.length + 16)
                ({ t with ins := ins2 } : St) f t3 hft
              dsimp only at hg
              omega
            · rw [if_neg h1] at hft
              by_cases h2 : ty = 2
              · rw [if_pos h2] at hft
                have hg := dynamic_growth inp ({ t with ins := ins2 } : St)
                  f t3 hft
                dsimp only at hg
                omega
              · rw [if_neg h2] at hft
                simp only [Option.some.injEq, Prod.mk.injEq] at hft
                obtain ⟨-, h2'⟩ := hft
                subst h2'
                dsimp only
                omega
        cases hdt : (if ty = 0 then some (stored inp ({ t with ins := ins2 } : St))
             else if ty = 1 then
               fixed inp (8 * inp.length + 16) ({ t with ins := ins2 } : St)
             else if ty = 2 then dynamic inp ({ t with ins := ins2 } : St)
             else some (-1, ({ t with ins := ins2 } : St))) with
        | none =>
          cases hds : (if ty = 0 then some (stored inp ({ s with ins := ins2 } : St))
               else if ty = 1 then
                 fixed inp (8 * inp.length + 16) ({ s with ins := ins2 } : St)
               else if ty = 2 then dynamic inp ({ s with ins := ins2 } : St)
               else some (-1, ({ s with ins := ins2 } : St))) with
          | none =>
            exact ⟨rfl, ⟨rfl, hcnt, hsOut, htOut, hlen, hON⟩, rfl⟩
          | some rs =>
            obtain ⟨e, s3⟩ := rs
            rw [hds, hdt] at hdisp
            exact hdisp.elim
        | some rt =>
          obtain ⟨f, t3⟩ := rt
          cases hds : (if ty = 0 then some (stored inp ({ s with ins := ins2 } : St))
               else if ty = 1 then
                 fixed inp (8 * inp.length + 16) ({ s with ins := ins2 } : St)
               else if ty = 2 then dynamic inp ({ s with ins := ins2 } : St)
               else some (-1, ({ s with ins := ins2 } : St))) with
          | none =>
            rw [hds, hdt] at hdisp
            exact hdisp.elim
          | some rs =>
            obtain ⟨e, s3⟩ := rs
            rw [hds, hdt] at hdisp
            obtain ⟨hef, hrel3⟩ := hdisp
            subst hef
            dsimp only
            have hi3 : s3.ins = t3.ins := hrel3.1
            rw [hi3]
            by_cases hend : get_input_bit_position t3.ins = 8 * inp.length
            · rw [if_pos hend, if_pos hend]
              exact ⟨rfl, hrel3, rfl⟩
            · rw [if_neg hend, if_neg hend]
              by_cases herr : e ≠ 0
              · rw [if_pos herr, if_pos herr]
                exact ⟨rfl, hrel3, rfl⟩
              · rw [if_neg herr, if_neg herr]
                by_cases hlast : last = 1
                · rw [if_pos hlast, if_pos hlast]
                  exact ⟨rfl, hrel3, rfl⟩
                · rw [if_neg hlast, if_neg hlast]
                  apply ih
                  · exact hrel3
                  · have hg := hgrow e t3 hdt
                    omega

/-- **C7** (confirmed).  Running `puff()` in scan-only mode
(`dest == NIL`) and running it with a sufficiently large output buffer
consume the same input (identical final input cursors), return the
same error/success code, report the same decompressed length — the
scan pass's final `outcnt` equals the number of bytes the full pass
wrote into its buffer — and emit identical block traces.
"Sufficiently large" is witnessed by the crude capacity bound
`fuel * (per-block growth)`: at most `inp.length` bytes per stored
block and at most 258 bytes per `codes()` iteration. -/
theorem C7_scan_mode_matches_full_decode (inp : List Nat) (outlen olScan : Nat)
    (hcap : (8 * inp.length + 16) *
      (inp.length + 258 * (8 * inp.length + 16)) ≤ outlen) :
    (puff true outlen inp).1 = (puff false olScan inp).1 ∧
    (puff true outlen inp).2.1.ins = (puff false olScan inp).2.1.ins ∧
    (puff true outlen inp).2.1.outBuf.length =
      (puff false olScan inp).2.1.outcnt ∧
    (puff true outlen inp).2.1.outcnt = (puff false olScan inp).2.1.outcnt ∧
    (puff true outlen inp).2.2 = (puff false olScan inp).2.2 := by
  have h := puffLoop_sim outlen inp (8 * inp.length + 16)
    (puffInit true outlen) (puffInit false olScan) 0 []
    ⟨rfl, rfl, rfl, rfl, rfl, rfl⟩
    (by dsimp only [puffInit]; omega)
  obtain ⟨h1, h2, h3⟩ := h
  obtain ⟨hi, hc, _, _, hl, _⟩ := h2
  exact ⟨h1, hi, hl.trans hc, hc, h3⟩

/-- Witness for C7 at a concrete input (a single stored block holding
the byte 0xAB): the capacity bound holds with `outlen = 1057152` and
the scan pass with `*destlen = 0` matches the full pass. -/
theorem C7_witness :
    (8 * [1, 1, 0, 254, 255, 171].length + 16) *
        ([1, 1, 0, 254, 255, 171].length +
          258 * (8 * [1, 1, 0, 254, 255, 171].length + 16)) ≤ 1057152 ∧
    ((puff true 1057152 [1, 1, 0, 254, 255, 171]).1 =
        (puff false 0 [1, 1, 0, 254, 255, 171]).1 ∧
      (puff true 1057152 [1, 1, 0, 254, 255, 171]).2.1.ins =
        (puff false 0 [1, 1, 0, 254, 255, 171]).2.1.ins ∧
      (puff true 1057152 [1, 1, 0, 254, 255, 171]).2.1.outBuf.length =
        (puff false 0 [1, 1, 0, 254, 255, 171]).2.1.outcnt ∧
      (puff true 1057152 [1, 1, 0, 254, 255, 171]).2.1.outcnt =
        (puff false 0 [1, 1, 0, 254, 255, 171]).2.1.outcnt ∧
      (puff true 1057152 [1, 1, 0, 254, 255, 171]).2.2 =
        (puff false 0 [1, 1, 0, 254, 255, 171]).2.2) :=
  ⟨by decide,
   C7_scan_mode_matches_full_decode [1, 1, 0, 254, 255, 171] 1057152 0
     (by decide)⟩

/-! ### C6: Huffman decode canonicity.  The plan: `decodeSpec` (the
bit-level slow decode) decodes the canonical code of a symbol in
exactly its code length (`decodeSpec_canonical`), the fast `decode()`
simulates `decodeSpec` over the unread bit stream (`decodeGo_sim`),
and the symbol-table lemmas identify the decoded entry. -/

/-- Bitwise-or of an even number with a bit is addition (the fast
decoder's `code |= bitbuf & 1` step on an always-even `code`). -/
theorem lor_of_even (c b : Nat) (hb : b ≤ 1) (hc : c % 2 = 0) :
    c ||| b = c + b := by
  interval_cases b
  · simp
  · have h2 : c = 2 * (c / 2) := by omega
    rw [h2]
    have h := Nat.lor_bit false (c / 2) true 0
    simpa [Nat.bit] using h

/-- Peeling one bit off a right shift: the quotient by `2^m` is twice
the quotient by `2^(m+1)` plus bit `m`. -/
theorem div_pow_succ (v m : Nat) :
    v / 2 ^ m = 2 * (v / 2 ^ (m + 1)) + (if v.testBit m then 1 else 0) := by
  rw [Nat.testBit_to_div_mod]
  rw [pow_succ, ← Nat.div_div_eq_div_mul]
  rcases Nat.mod_two_eq_zero_or_one (v / 2 ^ m) with h | h <;> simp [h] <;> omega

/-- The MSB-first code bits of `v` start with its highest bit. -/
theorem codeBitsMSB_succ (r v : Nat) :
    codeBitsMSB (r + 1) v = v.testBit r :: codeBitsMSB r v := by
  unfold codeBitsMSB
  rw [List.range_succ_eq_map, List.map_cons, List.map_map]
  refine congrArg₂ List.cons ?_ ?_
  · norm_num
  · refine List.map_congr_left ?_
    intro j hj
    show v.testBit (r + 1 - 1 - (j + 1)) = v.testBit (r - 1 - j)
    congr 1
    omega

/-- The `next_code` recurrence, one step at a symbolic length. -/
theorem firstCode_succ (cnt : Nat → Nat) (n : Nat) (hn : 1 ≤ n) :
    firstCode cnt (n + 1) = (firstCode cnt n + cnt n) * 2 := by
  obtain ⟨m, rfl⟩ : ∃ m, n = m + 1 := ⟨n - 1, by omega⟩
  rfl

/-- The `offs` recurrence, one step at a symbolic length. -/
theorem symIndex_succ (cnt : Nat → Nat) (n : Nat) (hn : 1 ≤ n) :
    symIndex cnt (n + 1) = symIndex cnt n + cnt n := by
  obtain ⟨m, rfl⟩ : ∃ m, n = m + 1 := ⟨n - 1, by omega⟩
  rfl

/-- The canonical first-code values complement the left-recurrence:
`firstCode (l+1) = 2^(l+1) - 2*leftAt l`. -/
theorem firstCode_leftAt (cnt : Nat → Nat) :
    ∀ l, (firstCode cnt (l + 1) : Int) + 2 * leftAt cnt l = 2 ^ (l + 1) := by
  intro l
  induction l with
  | zero => simp [firstCode, leftAt]
  | succ l ih =>
    rw [firstCode_succ cnt (l + 1) (by omega)]
    show ((firstCode cnt (l + 1) + cnt (l + 1)) * 2 : Int) +
      2 * (2 * leftAt cnt l - (cnt (l + 1) : Int)) = 2 ^ (l + 1 + 1)
    push_cast
    rw [pow_succ]
    linarith [ih]

/-- `firstCode` at least doubles with each length step. -/
theorem firstCode_mono_pow (cnt : Nat → Nat) (n : Nat) :
    ∀ k, 2 ^ k * firstCode cnt (n + 1) ≤ firstCode cnt (n + 1 + k) := by
  intro k
  induction k with
  | zero => simp
  | succ k ih =>
    have h1 : firstCode cnt (n + 1 + k + 1) =
        (firstCode cnt (n + 1 + k) + cnt (n + 1 + k)) * 2 :=
      firstCode_succ cnt (n + 1 + k) (by omega)
    have he : n + 1 + (k + 1) = n + 1 + k + 1 := by omega
    rw [he, h1]
    calc 2 ^ (k + 1) * firstCode cnt (n + 1)
        = 2 * (2 ^ k * firstCode cnt (n + 1)) := by ring
      _ ≤ 2 * firstCode cnt (n + 1 + k) := Nat.mul_le_mul (Nat.le_refl 2) ih
      _ ≤ (firstCode cnt (n + 1 + k) + cnt (n + 1 + k)) * 2 := by omega

/-- The canonical code prefix property: the first-code interval at a
shorter length `n`, shifted up to length `L`, sits below
`firstCode L`. -/
theorem firstCode_ge_shift (cnt : Nat → Nat) (n L : Nat) (h1 : 1 ≤ n)
    (hnL : n < L) :
    2 ^ (L - n) * (firstCode cnt n + cnt n) ≤ firstCode cnt L := by
  have hfs : firstCode cnt (n + 1) = (firstCode cnt n + cnt n) * 2 :=
    firstCode_succ cnt n h1
  have hm := firstCode_mono_pow cnt n (L - n - 1)
  have hL : n + 1 + (L - n - 1) = L := by omega
  rw [hL, hfs] at hm
  have hpow : 2 ^ (L - n) = 2 ^ (L - n - 1) * 2 := by
    rw [← pow_succ]
    congr 1
    omega
  calc 2 ^ (L - n) * (firstCode cnt n + cnt n)
      = 2 ^ (L - n - 1) * ((firstCode cnt n + cnt n) * 2) := by rw [hpow]; ring
    _ ≤ firstCode cnt L := hm

/-- Canonical decode walk of the bit-level decoder: at state
`len = n` with `k + 1 code bits left`, accumulator `2*(v >> (k+1))`,
`first = firstCode n` and `index = symIndex n`, the decoder finishes
at length `L` on the table entry of rank `v - firstCode L`. -/
theorem decodeSpec_canonical (cnt : Nat → Nat) (sym : List Nat) (L v : Nat)
    (hL15 : L ≤ 15)
    (hstop : v < firstCode cnt L + cnt L)
    (hmiss : ∀ n, 1 ≤ n → n < L → firstCode cnt n + cnt n ≤ v / 2 ^ (L - n))
    (rest : List Bool) :
    ∀ k n, n + k = L → 1 ≤ n →
      decodeSpec cnt sym (codeBitsMSB (k + 1) v ++ rest) n
        (2 * (v / 2 ^ (k + 1))) (firstCode cnt n) (symIndex cnt n)
      = some (sym.getD (symIndex cnt L + (v - firstCode cnt L)) 0, L) := by
  intro k
  induction k with
  | zero =>
    intro n hnk h1
    have hn : n = L := by omega
    subst hn
    have hc : codeBitsMSB 1 v = [v.testBit 0] := by
      rw [show (1 : Nat) = 0 + 1 from rfl, codeBitsMSB_succ]
      simp [codeBitsMSB]
    rw [hc, List.singleton_append]
    rw [decodeSpec]
    rw [if_neg (by omega : ¬ n > 15)]
    dsimp only
    have hv' : 2 * (v / 2 ^ (0 + 1)) + (if v.testBit 0 then 1 else 0) = v := by
      have h := div_pow_succ v 0
      simp only [pow_zero, Nat.div_one] at h
      omega
    rw [hv']
    rw [if_pos hstop]
  | succ k ih =>
    intro n hnk h1
    have hnL : n < L := by omega
    rw [codeBitsMSB_succ, List.cons_append]
    rw [decodeSpec]
    rw [if_neg (by omega : ¬ n > 15)]
    dsimp only
    have hcode : 2 * (v / 2 ^ (k + 1 + 1)) + (if v.testBit (k + 1) then 1 else 0)
        = v / 2 ^ (k + 1) := (div_pow_succ v (k + 1)).symm
    rw [hcode]
    have hge : firstCode cnt n + cnt n ≤ v / 2 ^ (k + 1) := by
      have h := hmiss n h1 hnL
      rwa [show L - n = k + 1 from by omega] at h
    rw [if_neg (by omega)]
    rw [mul_comm (v / 2 ^ (k + 1)) 2, ← firstCode_succ cnt n h1,
        ← symIndex_succ cnt n h1]
    exact ih (n + 1) (by omega) (by omega)

/-- Counting positions holding `l` equals counting occurrences of
`l`. -/
theorem length_filter_range_getD (L : List Nat) (l : Nat) :
    ((List.range L.length).filter (fun s => L.getD s 0 = l)).length
      = L.count l := by
  induction L with
  | nil => simp
  | cons a L ih =>
    rw [List.length_cons, List.range_succ_eq_map]
    rw [List.filter_cons]
    have htail : ((List.range L.length).map (· + 1)).filter
        (fun s => (a :: L).getD s 0 = l) =
        ((List.range L.length).filter (fun s => L.getD s 0 = l)).map (· + 1) := by
      rw [List.filter_map]
      congr 1
    rw [htail]
    by_cases hal : a = l
    · rw [if_pos (by simp [hal])]
      rw [List.length_cons, List.length_map, ih, List.count_cons]
      rw [hal]
      simp
    · rw [if_neg (by simp [hal])]
      rw [List.length_map, ih, List.count_cons]
      simp [hal]

/-- `h->symbol[]` groups have the histogram sizes. -/
theorem symbolsOfLength_length (lengths : List Nat) (l : Nat) :
    (symbolsOfLength lengths l).length = lengthCount lengths l := by
  unfold symbolsOfLength lengthCount
  exact length_filter_range_getD lengths l

/-- `symIndex` is the prefix sum of the histogram. -/
theorem symIndex_sum (cnt : Nat → Nat) :
    ∀ l, symIndex cnt (l + 1) = ((List.range l).map (fun i => cnt (i + 1))).sum := by
  intro l
  induction l with
  | zero => simp [symIndex]
  | succ l ih =>
    rw [symIndex_succ cnt (l + 1) (by omega)]
    rw [ih, List.range_succ, List.map_append, List.sum_append]
    simp

/-- Indexing a flattened list of groups at a prefix-sum offset hits
the selected group. -/
theorem join_getD (gs : List (List Nat)) :
    ∀ k r, r < (gs.getD k []).length →
      gs.flatten.getD (((gs.take k).map List.length).sum + r) 0
        = (gs.getD k []).getD r 0 := by
  induction gs with
  | nil =>
    intro k r hr
    simp at hr
  | cons a gs ih =>
    intro k r hr
    cases k with
    | zero =>
      simp only [List.take_zero, List.map_nil, List.sum_nil, Nat.zero_add]
      rw [List.flatten_cons]
      exact List.getD_append _ _ _ _ hr
    | succ k =>
      rw [List.take_succ_cons, List.map_cons, List.sum_cons, List.flatten_cons]
      rw [Nat.add_assoc]
      rw [List.getD_append_right _ _ _ _ (by omega)]
      rw [show a.length + (((gs.take k).map List.length).sum + r) - a.length
          = ((gs.take k).map List.length).sum + r from by omega]
      exact ih k r hr

/-- Indexing `h->symbol[]` at `offs[L] + r` returns the `r`-th symbol
of length `L`. -/
theorem mkSymbol_getD (lengths : List Nat) (L : Nat) (h1 : 1 ≤ L) (h15 : L ≤ 15)
    (r : Nat) (hr : r < (symbolsOfLength lengths L).length) :
    (mkSymbol lengths).getD (symIndex (lengthCount lengths) L + r) 0
      = (symbolsOfLength lengths L).getD r 0 := by
  unfold mkSymbol
  have hgs : ((List.range 15).map
      (fun i => symbolsOfLength lengths (i + 1))).getD (L - 1) []
      = symbolsOfLength lengths L := by
    rw [List.getD_eq_getElem _ _ (by simpa using (by omega : L - 1 < 15))]
    simp only [List.getElem_map, List.getElem_range]
    rw [show L - 1 + 1 = L from by omega]
  have hj := join_getD ((List.range 15).map
      (fun i => symbolsOfLength lengths (i + 1))) (L - 1) r
    (by rw [hgs]; exact hr)
  rw [hgs] at hj
  have hsum : ((((List.range 15).map
      (fun i => symbolsOfLength lengths (i + 1))).take (L - 1)).map
        List.length).sum = symIndex (lengthCount lengths) L := by
    rw [← List.map_take, List.take_range, Nat.min_eq_left (by omega)]
    rw [List.map_map]
    have hfun : ((List.range (L - 1)).map
        (List.length ∘ fun i => symbolsOfLength lengths (i + 1)))
        = (List.range (L - 1)).map (fun i => lengthCount lengths (i + 1)) := by
      refine List.map_congr_left ?_
      intro i hi
      exact symbolsOfLength_length lengths (i + 1)
    rw [hfun, ← symIndex_sum, show L - 1 + 1 = L from by omega]
  rw [hsum] at hj
  exact hj

/-- The fast `decode()` loop simulates the bit-level decoder over the
unread stream.  `slack` is the number of loaded-but-unconsumed buffer
bits (`left ≤ slack`, with `left < slack` only in the final partial
byte where `len + left = 16`); the linear side conditions tie the
cursor to the entry bit position `8*incnt0 - bitcnt0`. -/
theorem decodeGo_sim (inp : List Nat) (cnt : Nat → Nat) (sym : List Nat)
    (bitbuf0 bitcnt0 incnt0 : Nat) (hb7 : bitcnt0 ≤ 7)
    (hb8 : bitcnt0 ≤ 8 * incnt0) :
    ∀ fuel bitbuf left code first index len incnt slack v l,
      1 ≤ len → len + left ≤ 16 →
      left ≤ slack → slack ≤ 8 →
      (left = slack ∨ len + left = 16) →
      8 * incnt = (8 * incnt0 - bitcnt0) + (len - 1) + slack →
      incnt ≤ inp.length →
      2 * (16 - len) + (if left = 0 then 2 else 1) ≤ fuel →
      code % 2 = 0 →
      decodeSpec cnt sym
        (lowBits bitbuf slack ++ ((inp.drop incnt).map byteBits).flatten)
        len code first index = some (v, l) →
      ∃ ins' : InSt,
        decodeGo inp cnt sym bitbuf0 bitcnt0 fuel bitbuf left code first index
            len incnt = some ((v : Int), ins') ∧
        get_input_bit_position ins' = (8 * incnt0 - bitcnt0) + l := by
  intro fuel
  induction fuel with
  | zero =>
    intro bitbuf left code first index len incnt slack v l
      h1 h2 h3 h4 h5 h6 h7 hfuel h8 hspec
    exfalso
    by_cases h : left = 0
    · rw [if_pos h] at hfuel; omega
    · rw [if_neg h] at hfuel; omega
  | succ fuel ih =>
    intro bitbuf left code first index len incnt slack v l
      hlen1 hlenleft hls hs8 hdisj hpos hincnt hfuel heven hspec
    by_cases hleft : left = 0
    · by_cases h16 : 16 - len = 0
      · exfalso
        rw [decodeSpec.eq_def] at hspec
        dsimp only at hspec
        rw [if_pos (by omega : len > 15)] at hspec
        simp at hspec
      · have hlen15 : len ≤ 15 := by omega
        have hslack0 : slack = 0 := by rcases hdisj with h | h <;> omega
        subst hslack0
        by_cases hend : incnt = inp.length
        · exfalso
          rw [decodeSpec.eq_def] at hspec
          dsimp only at hspec
          rw [if_neg (by omega : ¬ len > 15)] at hspec
          rw [hend] at hspec
          simp [lowBits, List.drop_length] at hspec
        · simp only [decodeGo]
          rw [if_pos hleft, if_neg h16, if_neg hend]
          have hlt : incnt < inp.length := by omega
          have hdrop : inp.drop incnt = inp.getD incnt 0 :: inp.drop (incnt + 1) := by
            rw [List.getD_eq_getElem _ _ hlt]
            exact List.drop_eq_getElem_cons hlt
          have hifne : ¬((if 16 - len > 8 then 8 else 16 - len) = 0) := by
            split <;> omega
          refine ih (inp.getD incnt 0) (if 16 - len > 8 then 8 else 16 - len)
            code first index len (incnt + 1) 8 v l hlen1 ?_ ?_ ?_ ?_ ?_ ?_ ?_
            heven ?_
          · split <;> omega
          · split <;> omega
          · omega
          · split
            · exact Or.inl rfl
            · exact Or.inr (by omega)
          · omega
          · omega
          · rw [if_neg hifne]
            rw [if_pos hleft] at hfuel
            omega
          · have hstream : lowBits (inp.getD incnt 0) 8 ++
                ((inp.drop (incnt + 1)).map byteBits).flatten =
                lowBits bitbuf 0 ++ ((inp.drop incnt).map byteBits).flatten := by
              rw [hdrop, List.map_cons, List.flatten_cons]
              rfl
            rw [hstream]
            exact hspec
    · obtain ⟨m, hm⟩ : ∃ m, slack = m + 1 := ⟨slack - 1, by omega⟩
      subst hm
      have hlen15 : len ≤ 15 := by omega
      rw [decodeSpec.eq_def] at hspec
      dsimp only at hspec
      rw [if_neg (by omega : ¬ len > 15)] at hspec
      rw [show lowBits bitbuf (m + 1)
          = bitbuf.testBit 0 :: lowBits (bitbuf >>> 1) m from rfl] at hspec
      rw [List.cons_append] at hspec
      dsimp only at hspec
      have hb1 : bitbuf &&& 1 = if bitbuf.testBit 0 then 1 else 0 := by
        rw [Nat.and_one_is_mod]
        rcases Nat.mod_two_eq_zero_or_one bitbuf with h | h <;>
          simp [Nat.testBit_to_div_mod, h]
      have hcode : code ||| (bitbuf &&& 1)
          = code + (if bitbuf.testBit 0 then 1 else 0) := by
        rw [hb1]
        refine lor_of_even code _ ?_ heven
        split <;> omega
      simp only [decodeGo]
      rw [if_neg hleft]
      rw [hcode]
      by_cases hhit : code + (if bitbuf.testBit 0 then 1 else 0) < first + cnt len
      · rw [if_pos hhit]
        rw [if_pos hhit] at hspec
        simp only [Option.some.injEq, Prod.mk.injEq] at hspec
        obtain ⟨hv, hl⟩ := hspec
        refine ⟨⟨incnt, bitbuf >>> 1, (bitcnt0 + 120 - len) % 8⟩, ?_, ?_⟩
        · rw [hv]
        · subst hl
          unfold get_input_bit_position
          dsimp only
          omega
      · rw [if_neg hhit]
        rw [if_neg hhit] at hspec
        refine ih (bitbuf >>> 1) (left - 1)
          ((code + (if bitbuf.testBit 0 then 1 else 0)) * 2)
          ((first + cnt len) * 2) (index + cnt len) (len + 1) incnt m v l
          (by omega) (by omega) (by omega) (by omega) ?_ (by omega) hincnt
          ?_ (by omega) hspec
        · rcases hdisj with h | h
          · exact Or.inl (by omega)
          · exact Or.inr (by omega)
        · rw [if_neg hleft] at hfuel
          split <;> omega

/-- **C6** (confirmed).  For every length vector accepted by
`construct()` (return value zero or positive, entries at most 15) and
every symbol `S` of nonzero code length, running the fast `decode()`
on an input state whose unread bit stream starts with the canonical
Huffman code of `S` — the value `firstCode L + rank` over `L` code
bits, presented MSB-first within the code — returns `S` and consumes
exactly `L = lengths[S]` bits of input. -/
theorem C6_decode_canonical_code
    (lengths : List Nat) (S : Nat) (hS : S < lengths.length)
    (hb : ∀ x ∈ lengths, x ≤ 15)
    (hacc : 0 ≤ construct lengths)
    (hLpos : 0 < lengths.getD S 0)
    (inp : List Nat) (s : InSt) (rest : List Bool)
    (hinv : InsInv s) (hin : s.incnt ≤ inp.length)
    (hstream : streamBits inp s =
      codeBitsMSB (lengths.getD S 0)
        (firstCode (lengthCount lengths) (lengths.getD S 0)
          + (symbolsOfLength lengths (lengths.getD S 0)).indexOf S) ++ rest) :
    ∃ s' : InSt,
      decode inp (lengthCount lengths) (mkSymbol lengths) s
        = some ((S : Int), s') ∧
      get_input_bit_position s' =
        get_input_bit_position s + lengths.getD S 0 := by
  have hmemL : lengths.getD S 0 ∈ lengths := by
    rw [List.getD_eq_getElem _ _ hS]
    exact List.getElem_mem _
  have hL15 : lengths.getD S 0 ≤ 15 := hb _ hmemL
  have hL1 : 1 ≤ lengths.getD S 0 := hLpos
  have hmemS : S ∈ symbolsOfLength lengths (lengths.getD S 0) := by
    unfold symbolsOfLength
    refine List.mem_filter.mpr ⟨List.mem_range.mpr hS, by simp⟩
  have hrank : (symbolsOfLength lengths (lengths.getD S 0)).indexOf S
      < (symbolsOfLength lengths (lengths.getD S 0)).length :=
    List.indexOf_lt_length.mpr hmemS
  have hrankcnt : (symbolsOfLength lengths (lengths.getD S 0)).indexOf S
      < lengthCount lengths (lengths.getD S 0) := by
    have := symbolsOfLength_length lengths (lengths.getD S 0)
    omega
  have hstop : firstCode (lengthCount lengths) (lengths.getD S 0)
      + (symbolsOfLength lengths (lengths.getD S 0)).indexOf S
      < firstCode (lengthCount lengths) (lengths.getD S 0)
        + lengthCount lengths (lengths.getD S 0) := by omega
  have hnz : ∃ x ∈ lengths, x ≠ 0 := ⟨lengths.getD S 0, hmemL, by omega⟩
  have hclass := construct_classification lengths hnz
  have h15nonneg : 0 ≤ leftAt (lengthCount lengths) 15 := by
    have h := hclass.1
    omega
  have hAll : ∀ l, l ≤ 15 → 0 ≤ leftAt (lengthCount lengths) l := by
    intro l hl
    by_contra hneg
    push_neg at hneg
    have h := leftAt_neg_propagates (lengthCount lengths) (15 - l) l hneg
    rw [show l + (15 - l) = 15 from by omega] at h
    omega
  have hfl := firstCode_leftAt (lengthCount lengths) (lengths.getD S 0 - 1)
  rw [show lengths.getD S 0 - 1 + 1 = lengths.getD S 0 from by omega] at hfl
  have hstepL : leftAt (lengthCount lengths) (lengths.getD S 0)
      = 2 * leftAt (lengthCount lengths) (lengths.getD S 0 - 1)
        - (lengthCount lengths (lengths.getD S 0) : Int) := by
    have h : leftAt (lengthCount lengths) (lengths.getD S 0 - 1 + 1)
        = 2 * leftAt (lengthCount lengths) (lengths.getD S 0 - 1)
          - (lengthCount lengths (lengths.getD S 0 - 1 + 1) : Int) := rfl
    rwa [show lengths.getD S 0 - 1 + 1 = lengths.getD S 0 from by omega] at h
  have hvint : (firstCode (lengthCount lengths) (lengths.getD S 0)
      + (symbolsOfLength lengths (lengths.getD S 0)).indexOf S : Int)
      < 2 ^ lengths.getD S 0 := by
    have hLnn := hAll (lengths.getD S 0) hL15
    have hcast : ((symbolsOfLength lengths (lengths.getD S 0)).indexOf S : Int)
        < (lengthCount lengths (lengths.getD S 0) : Int) := by
      exact_mod_cast hrankcnt
    push_cast
    linarith [hfl, hstepL ▸ hLnn]
  have hv : firstCode (lengthCount lengths) (lengths.getD S 0)
      + (symbolsOfLength lengths (lengths.getD S 0)).indexOf S
      < 2 ^ lengths.getD S 0 := by exact_mod_cast hvint
  have hmiss : ∀ n, 1 ≤ n → n < lengths.getD S 0 →
      firstCode (lengthCount lengths) n + lengthCount lengths n ≤
        (firstCode (lengthCount lengths) (lengths.getD S 0)
          + (symbolsOfLength lengths (lengths.getD S 0)).indexOf S)
          / 2 ^ (lengths.getD S 0 - n) := by
    intro n h1 h2
    have hge := firstCode_ge_shift (lengthCount lengths) n (lengths.getD S 0) h1 h2
    refine (Nat.le_div_iff_mul_le (Nat.pos_pow_of_pos _ (by omega))).mpr ?_
    calc (firstCode (lengthCount lengths) n + lengthCount lengths n)
          * 2 ^ (lengths.getD S 0 - n)
        = 2 ^ (lengths.getD S 0 - n)
          * (firstCode (lengthCount lengths) n + lengthCount lengths n) := by ring
      _ ≤ firstCode (lengthCount lengths) (lengths.getD S 0) := hge
      _ ≤ _ := Nat.le_add_right _ _
  have hspec := decodeSpec_canonical (lengthCount lengths) (mkSymbol lengths)
    (lengths.getD S 0)
    (firstCode (lengthCount lengths) (lengths.getD S 0)
      + (symbolsOfLength lengths (lengths.getD S 0)).indexOf S)
    hL15 hstop hmiss rest (lengths.getD S 0 - 1) 1 (by omega) (by omega)
  rw [show lengths.getD S 0 - 1 + 1 = lengths.getD S 0 from by omega] at hspec
  rw [Nat.div_eq_of_lt hv, Nat.mul_zero] at hspec
  have hsub : firstCode (lengthCount lengths) (lengths.getD S 0)
      + (symbolsOfLength lengths (lengths.getD S 0)).indexOf S
      - firstCode (lengthCount lengths) (lengths.getD S 0)
      = (symbolsOfLength lengths (lengths.getD S 0)).indexOf S := by omega
  rw [hsub] at hspec
  have hgetd : (symbolsOfLength lengths (lengths.getD S 0)).getD
      ((symbolsOfLength lengths (lengths.getD S 0)).indexOf S) 0 = S := by
    rw [List.getD_eq_getElem _ _ hrank]
    exact List.getElem_indexOf hrank
  rw [mkSymbol_getD lengths (lengths.getD S 0) hL1 hL15 _ hrank, hgetd] at hspec
  have hsim := decodeGo_sim inp (lengthCount lengths) (mkSymbol lengths)
    s.bitbuf s.bitcnt s.incnt hinv.1 hinv.2 64 s.bitbuf s.bitcnt 0 0 0 1 s.incnt
    s.bitcnt S (lengths.getD S 0) (by omega) (by have := hinv.1; omega)
    (le_refl _) (by have := hinv.1; omega) (Or.inl rfl)
    (by have := hinv.2; omega) hin (by split <;> omega) (by omega)
    (by
      show decodeSpec (lengthCount lengths) (mkSymbol lengths)
        (streamBits inp s) 1 0 (firstCode (lengthCount lengths) 1)
        (symIndex (lengthCount lengths) 1) = _
      rw [hstream]
      exact hspec)
  obtain ⟨ins', hdec, hpos⟩ := hsim
  exact ⟨ins', hdec, by rw [hpos]; rfl⟩

/-- Witness for C6: the complete code with lengths `[1, 2, 2]`
(accepted by `construct`), symbol 2 of length 2 and canonical code
`11`; the input byte `0x03` delivers those two bits first, and
`decode` returns symbol 2 after consuming exactly 2 bits. -/
theorem C6_witness :
    (2 : Nat) < [1, 2, 2].length ∧
    0 ≤ construct [1, 2, 2] ∧
    0 < [1, 2, 2].getD 2 0 ∧
    streamBits [3] ⟨0, 0, 0⟩ =
      codeBitsMSB ([1, 2, 2].getD 2 0)
        (firstCode (lengthCount [1, 2, 2]) ([1, 2, 2].getD 2 0)
          + (symbolsOfLength [1, 2, 2] ([1, 2, 2].getD 2 0)).indexOf 2)
        ++ [false, false, false, false, false, false] ∧
    (∃ s' : InSt,
      decode [3] (lengthCount [1, 2, 2]) (mkSymbol [1, 2, 2]) ⟨0, 0, 0⟩
        = some (((2 : Nat) : Int), s') ∧
      get_input_bit_position s' =
        get_input_bit_position ⟨0, 0, 0⟩ + [1, 2, 2].getD 2 0) :=
  ⟨by decide, by decide, by decide, by decide,
   C6_decode_canonical_code [1, 2, 2] 2 (by decide) (by decide) (by decide)
     (by decide) [3] ⟨0, 0, 0⟩ [false, false, false, false, false, false]
     (by exact ⟨by decide, by decide⟩) (by decide) (by decide)⟩

/-- Witness for C10: CMF = 0x78, FLG = 0x00 (30720 % 31 = 30 ≠ 0),
followed by a valid empty stored block. -/
theorem C10_witness :
    (zlib_dump false 0 [0x78, 0x00, 1, 0, 0, 0xff, 0xff]).fcheckDesc
        = some "check failed" ∧
    (zlib_dump false 0 [0x78, 0x00, 1, 0, 0, 0xff, 0xff]).deflateInvoked = true ∧
    (zlib_dump false 0 [0x78, 0x00, 1, 0, 0, 0xff, 0xff]).ret
        = (puff false 0 [1, 0, 0, 0xff, 0xff]).1 := by
  have h := C10_zlib_bad_fcheck_nonfatal false 0 [0x78, 0x00, 1, 0, 0, 0xff, 0xff]
    (by decide) (by decide) (by decide)
  exact h

end PuffC
